import Mathlib

/-!
Verification development for ScreenUi, a character-cell UI toolkit
(`ScreenUi.cpp` / `ScreenUi.h`).  The code is shallowly embedded: C++
objects become Lean structures, machine integers become `Int`/`Nat` with
explicit wrapping (`% 256`) at every point where the C++ performs an
`int → uint8_t` or `int → int8_t` conversion, and operations that
dereference a possibly-NULL pointer or write out of bounds return
`Option` (`none` = crash / undefined behavior).

Components are identified by a `Nat` id standing for the C++ object
pointer: distinct objects have distinct ids, and pointer comparison
becomes id comparison.  Text payloads of draw calls are abstracted to
tagged draw events carrying coordinates and the drawing component's id
(no claim depends on the glyph bytes themselves); the `dirtyWidth_`
blank-padding of `Label::paint` and the hardware-cursor calls of
`Input::paint` are likewise not recorded, as no claim mentions them.
-/

namespace ScreenUi

/-- C `int → uint8_t` conversion: reduce mod 256 (result in `[0, 255]`). -/
def toUInt8c (n : Int) : Int := n % 256

/-- C `int → int8_t` conversion: wrap into `[-128, 127]`. -/
def toInt8c (n : Int) : Int := (n + 128) % 256 - 128

/-!
## RangeCharSet

`RangeCharSet` stores `rangeCount_` inclusive `(first, last)` pairs of
`unsigned char` values in `ranges_`; the constructor truncates every
argument to `unsigned char`, so each stored bound lies in `[0, 255]`.
-/

/-- The `ranges_` array of a constructed `RangeCharSet`: the list of
inclusive `(first, last)` pairs, each component an `unsigned char` value. -/
structure RangeCharSet where
  ranges : List (Nat × Nat)

namespace RangeCharSet

/-- The loop of `RangeCharSet::charAt`: walk the ranges keeping
`currentIndex`, and when `index` falls inside the current range return
`(unsigned char)(first + (index - currentIndex))`; past the last range
return `-1`. -/
def charAtAux : List (Nat × Nat) → Int → Int → Int
  | [], _, _ => -1
  | (lo, hi) :: rest, currentIndex, index =>
    if currentIndex ≤ index ∧ index ≤ currentIndex + ((hi : Int) - (lo : Int)) then
      toUInt8c ((lo : Int) + (index - currentIndex))
    else
      charAtAux rest (currentIndex + ((hi : Int) - (lo : Int)) + 1) index

/-- `RangeCharSet::charAt(int index)`. -/
def charAt (s : RangeCharSet) (index : Int) : Int :=
  charAtAux s.ranges 0 index

/-- `RangeCharSet::size()`: an `unsigned char` accumulator receives
`(last - first) + 1` per range, wrapping mod 256 at every step. -/
def size (s : RangeCharSet) : Int :=
  s.ranges.foldl (fun sz r => toUInt8c (sz + ((r.2 : Int) - (r.1 : Int)) + 1)) 0

/-- The loop of `RangeCharSet::indexOf`: `fuel` counts the remaining
iterations (`size()` at the top call), `i` the current index. -/
def indexOfAux (s : RangeCharSet) (ch : Nat) : Nat → Nat → Int
  | _, 0 => -1
  | i, fuel + 1 =>
    if charAt s (i : Int) = (ch : Int) then (i : Int) else indexOfAux s ch (i + 1) fuel

/-- `RangeCharSet::indexOf(unsigned char ch)`: scan indices
`0 ≤ i < size()` and return the first with `charAt(i) == ch`, else `-1`. -/
def indexOf (s : RangeCharSet) (ch : Nat) : Int :=
  indexOfAux s ch 0 (size s).toNat

/-- Passing an `int` to `indexOf`'s `unsigned char` parameter truncates
it mod 256 first. -/
def indexOfInt (s : RangeCharSet) (c : Int) : Int :=
  indexOf s (toUInt8c c).toNat

/-- The members contributed by one inclusive range, in order. -/
def block (r : Nat × Nat) : List Nat :=
  (List.range (r.2 + 1 - r.1)).map (fun k => r.1 + k)

/-- The flattened member sequence of the set, range by range: the spec's
"total ordering over its member characters via a flattened index". -/
def chars (s : RangeCharSet) : List Nat :=
  s.ranges.flatMap block

/-- The exact sum of the inclusive widths of the ranges. -/
def totalWidth (s : RangeCharSet) : Nat :=
  (s.ranges.map (fun r => r.2 + 1 - r.1)).sum

/-- The hypotheses under which the character/index maps are mutually
inverse: genuine inclusive `unsigned char` ranges, pairwise disjoint,
with total width small enough that the `unsigned char` size accumulator
does not wrap. -/
def wfRanges (s : RangeCharSet) : Prop :=
  (∀ r ∈ s.ranges, r.1 ≤ r.2 ∧ r.2 ≤ 255) ∧
  s.ranges.Pairwise (fun r q => r.2 < q.1 ∨ q.2 < r.1) ∧
  totalWidth s ≤ 255

instance (s : RangeCharSet) : Decidable (wfRanges s) := by
  unfold wfRanges; infer_instance

end RangeCharSet

/-- The global `defaultCharSet` (space, letters, digits, specials). -/
def defaultCharSet : RangeCharSet :=
  ⟨[(32, 32), (65, 90), (97, 122), (48, 57), (33, 47), (58, 64), (91, 96), (123, 126)]⟩

/-- The global `floatingPointCharSet` (space, digits, period, minus). -/
def floatingPointCharSet : RangeCharSet :=
  ⟨[(32, 32), (48, 57), (46, 46), (45, 45)]⟩

/-!
## The List widget

`List` holds `itemCount_` and `selectedIndex_` (both `uint8_t`) and a
`captured_` flag.  The item strings themselves decide only the displayed
text, which is abstracted away; the index arithmetic is exact.
-/

/-- The state of a `List` component relevant to index handling. -/
structure ListWidget where
  itemCount : Nat
  selectedIndex : Nat
  captured : Bool
  deriving Repr, DecidableEq

namespace ListWidget

/-- `List::setSelectedIndex(uint8_t selectedIndex)`: stores the argument
(truncated to `uint8_t` at the call boundary) with no clamping; the
`setText`/`repaint` calls it makes affect only text and dirtiness. -/
def setSelectedIndex (w : ListWidget) (idx : Int) : ListWidget :=
  { w with selectedIndex := (toUInt8c idx).toNat }

/-- `List::handleInputEvent(x, y, selected, cancelled)`: while captured a
vertical delta moves the selected index with the `max`/`min` clamping of
the source; a `selected` press toggles capture; returns the new
`captured_`.  `x` and `cancelled` are ignored, as in the source. -/
def handleInputEvent (w : ListWidget) (x y : Int) (selected cancelled : Bool) :
    ListWidget × Bool :=
  let w1 :=
    if w.captured ∧ y ≠ 0 then
      if y < 0 then
        setSelectedIndex w (max ((w.selectedIndex : Int) + y) 0)
      else
        setSelectedIndex w (min ((w.selectedIndex : Int) + y) ((w.itemCount : Int) - 1))
    else w
  let w2 := if selected then { w1 with captured := !w1.captured } else w1
  (w2, w2.captured)

end ListWidget

/-!
## The Input widget

`Input` edits a fixed-width string through its `charSet_`, which the
constructor points at the global `defaultCharSet`.  Characters are
stored as their `Nat` codes.
-/

/-- The state of an `Input` component: cursor `position_` (`int8_t`),
the `selecting_`/`captured_` flags and the edited text. -/
structure InputWidget where
  position : Int
  selecting : Bool
  captured : Bool
  text : List Nat
  deriving Repr, DecidableEq

/-!
## The component tree

One inductive covers every concrete `Component`: the five leaf widgets
(via `Widget`), plain `Container`s and `ScrollContainer`s.  Leaves carry
the id standing for the object's address.  A plain `Container` never has
its `width_`/`height_` set, so only `ScrollContainer` keeps a size.
`dirtySelf` is the `dirty_` flag a container inherits from `Component`;
`Container::dirty()` ignores it, but `Component::paint`/`clearDirty`
still write it.  `firstUpdateCompleted_` is read by `Container::update`
(the header declares it only on `ScrollContainer` and no constructor of
`Container` sets it; the model gives every container the flag, `false`
at construction per the spec's deferred-placement rule).
-/

/-- The widget-specific state of a leaf component. -/
inductive Widget where
  | label
  | button (pressed : Bool)
  | checkbox (checked : Bool)
  | list (w : ListWidget)
  | input (w : InputWidget)
  deriving Repr, DecidableEq

/-- `acceptsFocus()`: false for Label (and the Component default), true
for Button, Checkbox, List and Input. -/
def Widget.acceptsFocus : Widget → Bool
  | .label => false
  | _ => true

/-- The `captured_` member of `Label` as Input and List drive it (Button
and Checkbox never set it). -/
def Widget.captured : Widget → Bool
  | .list w => w.captured
  | .input w => w.captured
  | _ => false

/-- A leaf component: identity, geometry, dirty flag and widget state. -/
structure LeafData where
  id : Nat
  x : Int
  y : Int
  width : Nat
  dirty : Bool
  w : Widget
  deriving Repr, DecidableEq

/-- The `Component`-level state of a plain `Container`. -/
structure ContData where
  x : Int
  y : Int
  dirtySelf : Bool
  firstUpdateCompleted : Bool
  deriving Repr, DecidableEq

/-- The state of a `ScrollContainer` (geometry, flags and the
remembered `lastFocusHolder_`, which the constructor leaves
uninitialized — the model carries it as explicit state). -/
structure ScrollData where
  x : Int
  y : Int
  width : Nat
  height : Nat
  dirtySelf : Bool
  firstUpdateCompleted : Bool
  lastFocusHolder : Option Nat
  deriving Repr, DecidableEq

/-- A component tree. -/
inductive Comp where
  | leaf (l : LeafData)
  | cont (d : ContData) (cs : List Comp)
  | scroll (d : ScrollData) (cs : List Comp)
  deriving Repr

mutual

/-- Node count of a component: a size measure independent of the data
stored at the nodes (unlike `sizeOf`), used for termination. -/
def csizeComp : Comp → Nat
  | .leaf _ => 1
  | .cont _ cs => 1 + csizeList cs
  | .scroll _ cs => 1 + csizeList cs

def csizeList : List Comp → Nat
  | [] => 0
  | c :: rest => csizeComp c + csizeList rest

end

/-- `Component::y()`. -/
def compY : Comp → Int
  | .leaf l => l.y
  | .cont d _ => d.y
  | .scroll d _ => d.y

/-- `Component::x()`. -/
def compX : Comp → Int
  | .leaf l => l.x
  | .cont d _ => d.x
  | .scroll d _ => d.x

/-- `Component::setLocation(int8_t x, int8_t y)`: the arguments pass
through `int8_t` parameters (wrapping), children are untouched. -/
def setLoc : Comp → Int → Int → Comp
  | .leaf l, x, y => .leaf { l with x := toInt8c x, y := toInt8c y }
  | .cont d cs, x, y => .cont { d with x := toInt8c x, y := toInt8c y } cs
  | .scroll d cs, x, y => .scroll { d with x := toInt8c x, y := toInt8c y } cs

/-- `Component::clearDirty()`: clears only the node's own flag. -/
def clearDirty : Comp → Comp
  | .leaf l => .leaf { l with dirty := false }
  | .cont d cs => .cont { d with dirtySelf := false } cs
  | .scroll d cs => .scroll { d with dirtySelf := false } cs

/-- `Container::offsetChildren(x, y)`: relocate every direct child by
the given deltas — no recursion into grandchildren. -/
def offsetList (cs : List Comp) (dx dy : Int) : List Comp :=
  cs.map (fun c => setLoc c (compX c + dx) (compY c + dy))

mutual

/-- The leaves of a component, in depth-first pre-order. -/
def leavesComp : Comp → List LeafData
  | .leaf l => [l]
  | .cont _ cs => leavesList cs
  | .scroll _ cs => leavesList cs

def leavesList : List Comp → List LeafData
  | [] => []
  | c :: rest => leavesComp c ++ leavesList rest

end

mutual

/-- `Container::contains(component)`: direct match or recursive descent;
components are matched by leaf id (containers carry no id, as the
pointers compared against them are leaf pointers). -/
def containsComp : Comp → Nat → Bool
  | .leaf l, i => l.id == i
  | .cont _ cs, i => containsList cs i
  | .scroll _ cs, i => containsList cs i

def containsList : List Comp → Nat → Bool
  | [], _ => false
  | c :: rest, i => containsComp c i || containsList rest i

end

mutual

/-- The `y()` of the component with the given id (the C++ reads the
field through the pointer; the model locates the leaf in the tree). -/
def findYComp : Comp → Nat → Option Int
  | .leaf l, i => if l.id == i then some l.y else none
  | .cont _ cs, i => findYList cs i
  | .scroll _ cs, i => findYList cs i

def findYList : List Comp → Nat → Option Int
  | [], _ => none
  | c :: rest, i =>
    match findYComp c i with
    | some v => some v
    | none => findYList rest i

end

mutual

/-- `Component::repaint()` / `Container::repaint()`: a leaf sets its
dirty flag; a container forwards `repaint` to every child. -/
def repaintComp : Comp → Comp
  | .leaf l => .leaf { l with dirty := true }
  | .cont d cs => .cont d (repaintList cs)
  | .scroll d cs => .scroll d (repaintList cs)

def repaintList : List Comp → List Comp
  | [] => []
  | c :: rest => repaintComp c :: repaintList rest

end

/-- `ScrollContainer::scrollNeeded()`: true when the Screen's focus
holder differs from `lastFocusHolder_`, is contained in this subtree,
and its row lies outside `[uint8(y_), uint8(y_ + height_ - 1)]`.
`ctx` is the Screen's current focus holder. -/
def scrollNeeded (ctx : Option Nat) (d : ScrollData) (cs : List Comp) : Bool :=
  if d.lastFocusHolder ≠ ctx then
    match ctx with
    | none => false
    | some fh =>
      if containsList cs fh then
        match findYList cs fh with
        | some fy =>
          decide (fy < toUInt8c d.y) || decide (fy > toUInt8c (d.y + (d.height : Int) - 1))
        | none => false
      else false
  else false

mutual

/-- `dirty()` under virtual dispatch: a leaf reports its flag
(`Component::dirty`), a plain container reports "some child dirty"
(`Container::dirty`), a scroll container adds `scrollNeeded()`
(`ScrollContainer::dirty`). -/
def dirtyComp (ctx : Option Nat) : Comp → Bool
  | .leaf l => l.dirty
  | .cont _ cs => dirtyList ctx cs
  | .scroll d cs => dirtyList ctx cs || scrollNeeded ctx d cs

def dirtyList (ctx : Option Nat) : List Comp → Bool
  | [] => false
  | c :: rest => dirtyComp ctx c || dirtyList ctx rest

end

mutual

/-- One child step of `Container::nextFocusHolder(focusHolder, reverse,
&focusHolderFound)`: a focus-accepting leaf is returned when the scan is
already past `focusHolder` (or `focusHolder` is null); the leaf equal to
`focusHolder` sets the flag; containers recurse with the same flag
threading.  In reverse, the source's loop runs `i = count-1` while
`i > 0`, so a container's child at index 0 is never visited. -/
def nfhComp (cur : Option Nat) (rev : Bool) : Comp → Bool → Option Nat × Bool
  | .leaf l, found =>
    if l.w.acceptsFocus then
      if cur.isNone || found then (some l.id, found)
      else if cur == some l.id then (none, true)
      else (none, found)
    else (none, found)
  | .cont _ cs, found =>
    if rev then
      match cs with
      | [] => (none, found)
      | _ :: rest => nfhRev cur rev rest found
    else nfhFwd cur rev cs found
  | .scroll _ cs, found =>
    if rev then
      match cs with
      | [] => (none, found)
      | _ :: rest => nfhRev cur rev rest found
    else nfhFwd cur rev cs found

/-- The forward loop over a container's children. -/
def nfhFwd (cur : Option Nat) (rev : Bool) : List Comp → Bool → Option Nat × Bool
  | [], found => (none, found)
  | c :: rest, found =>
    match nfhComp cur rev c found with
    | (some r, f) => (some r, f)
    | (none, f) => nfhFwd cur rev rest f

/-- The reverse loop: processes the given children back to front. -/
def nfhRev (cur : Option Nat) (rev : Bool) : List Comp → Bool → Option Nat × Bool
  | [], found => (none, found)
  | c :: rest, found =>
    match nfhRev cur rev rest found with
    | (some r, f) => (some r, f)
    | (none, f) => nfhComp cur rev c f

end

/-- `Container::nextFocusHolder(focusHolder, reverse)` on a container
whose children are `cs` (the two-argument overload starts with the
found-flag false). -/
def nextFocusHolder (cs : List Comp) (cur : Option Nat) (rev : Bool) : Option Nat :=
  if rev then
    match cs with
    | [] => none
    | _ :: rest => (nfhRev cur rev rest false).1
  else (nfhFwd cur rev cs false).1

/-- The focus-eligible leaves of the tree, in depth-first pre-order. -/
def eligibleLeaves (cs : List Comp) : List Nat :=
  ((leavesList cs).filter (fun l => l.w.acceptsFocus)).map (fun l => l.id)

/-- The reference semantics of the focus search, following the spec's
words (§4.2): scan the depth-first pre-order sequence of focus-eligible
leaves (or its reverse); with no current holder return the first entry;
otherwise return the first entry strictly after the current holder,
without wrapping; return null when the current holder is absent. -/
def specNextFocusHolder (cs : List Comp) (cur : Option Nat) (rev : Bool) : Option Nat :=
  let seq := if rev then (eligibleLeaves cs).reverse else eligibleLeaves cs
  match cur with
  | none => seq.head?
  | some c => ((seq.dropWhile (fun i => i ≠ c)).drop 1).head?

/-!
## Arithmetic facts about the conversion helpers
-/

theorem toUInt8c_id {n : Int} (h0 : 0 ≤ n) (h1 : n < 256) : toUInt8c n = n :=
  Int.emod_eq_of_lt h0 h1

theorem toInt8c_id {n : Int} (h0 : -128 ≤ n) (h1 : n ≤ 127) : toInt8c n = n := by
  unfold toInt8c
  rw [Int.emod_eq_of_lt (by omega) (by omega)]
  omega

/-!
## Tree induction and size lemmas

`sizeOf` on `Comp` depends on the integers stored at the nodes, so the
definitions below that recurse on relocated or re-marked children
measure termination by the node count `csizeComp`/`csizeList` instead;
these lemmas feed those termination proofs and provide a mutual
induction principle for the nested inductive.
-/

theorem csizeComp_pos (c : Comp) : 1 ≤ csizeComp c := by
  cases c <;> simp [csizeComp]

theorem csizeComp_setLoc (c : Comp) (x y : Int) :
    csizeComp (setLoc c x y) = csizeComp c := by
  cases c <;> rfl

theorem csizeList_offsetList (cs : List Comp) (dx dy : Int) :
    csizeList (offsetList cs dx dy) = csizeList cs := by
  induction cs with
  | nil => rfl
  | cons c rest ih =>
    show csizeComp (setLoc c (compX c + dx) (compY c + dy)) + csizeList (offsetList rest dx dy)
      = csizeComp c + csizeList rest
    rw [csizeComp_setLoc, ih]

/-- Mutual structural induction for `Comp` and `List Comp`. -/
theorem Comp.myInd (P : Comp → Prop) (Q : List Comp → Prop)
    (hleaf : ∀ l, P (.leaf l))
    (hcont : ∀ d cs, Q cs → P (.cont d cs))
    (hscroll : ∀ d cs, Q cs → P (.scroll d cs))
    (hnil : Q [])
    (hcons : ∀ c cs, P c → Q cs → Q (c :: cs)) :
    (∀ c, P c) ∧ ∀ cs, Q cs := by
  have key : ∀ n, (∀ c, csizeComp c ≤ n → P c) ∧ (∀ cs, csizeList cs ≤ n → Q cs) := by
    intro n
    induction n with
    | zero =>
      constructor
      · intro c hc
        have := csizeComp_pos c
        omega
      · intro cs _
        cases cs with
        | nil => exact hnil
        | cons c rest =>
          have := csizeComp_pos c
          simp [csizeList] at *
          omega
    | succ n ih =>
      have hP : ∀ c, csizeComp c ≤ n + 1 → P c := by
        intro c hc
        cases c with
        | leaf l => exact hleaf l
        | cont d cs =>
          apply hcont
          apply ih.2
          simp [csizeComp] at hc
          omega
        | scroll d cs =>
          apply hscroll
          apply ih.2
          simp [csizeComp] at hc
          omega
      refine ⟨hP, ?_⟩
      intro cs
      induction cs with
      | nil => exact fun _ => hnil
      | cons c rest ihr =>
        intro hlen
        simp [csizeList] at hlen
        have h1 := csizeComp_pos c
        exact hcons c rest (hP c (by omega)) (ihr (by omega))
  exact ⟨fun c => (key (csizeComp c)).1 c le_rfl, fun cs => (key (csizeList cs)).2 cs le_rfl⟩

theorem csize_repaint :
    (∀ c, csizeComp (repaintComp c) = csizeComp c)
    ∧ ∀ cs, csizeList (repaintList cs) = csizeList cs := by
  apply Comp.myInd
  · intro l
    rfl
  · intro d cs h
    simp [repaintComp, csizeComp, h]
  · intro d cs h
    simp [repaintComp, csizeComp, h]
  · rfl
  · intro c cs h1 h2
    simp [repaintList, csizeList, h1, h2]

/-!
## The update phase
-/

/-- The per-frame reset of each widget: only `Button::update` overrides
the `Component::update` no-op, clearing `pressed_`. -/
def Widget.update : Widget → Widget
  | .button _ => .button false
  | w => w

mutual

/-- `Container::update(screen)`: on the very first call apply the
deferred offset `(0, y_)` to the direct children, then forward `update`
to every child in order.  `ScrollContainer::update` is declared in the
header but not defined in the repository's files; modelled from the
spec: "On its first `update`, shifts every descendant by its own
vertical position (same deferred-placement rule as Container)" — the
same behavior. -/
def updateComp : Comp → Comp
  | .leaf l => .leaf { l with w := l.w.update }
  | .cont d cs =>
    .cont { d with firstUpdateCompleted := true }
      (updateList (if d.firstUpdateCompleted then cs else offsetList cs 0 d.y))
  | .scroll d cs =>
    .scroll { d with firstUpdateCompleted := true }
      (updateList (if d.firstUpdateCompleted then cs else offsetList cs 0 d.y))
termination_by c => 2 * csizeComp c
decreasing_by
  all_goals simp_wf
  all_goals split <;> simp [csizeComp, csizeList_offsetList] <;> omega

def updateList : List Comp → List Comp
  | [] => []
  | c :: rest => updateComp c :: updateList rest
termination_by cs => 2 * csizeList cs + 1
decreasing_by
  · have := csizeComp_pos c
    simp [csizeList]
    omega
  · have := csizeComp_pos c
    simp [csizeList]
    omega

end

/-!
## The paint phase
-/

/-- One recorded display write (`Screen::draw`): a focus-decoration
glyph (its character code), a component's text (tagged by its id), or a
`clearLine` row blank.  Coordinates pass through `uint8_t`. -/
inductive DrawOp where
  | glyph (x y : Int) (g : Nat)
  | text (x y : Int) (comp : Nat)
  | blank (x y : Int)
  deriving Repr, DecidableEq

/-- The draw calls of `Label::paint` (shared by Button, Checkbox, List
and Input): when the component accepts focus, `>` `<` around it while
captured, `<` `>` while merely focused, `[` `]` otherwise; then the
text, indented one cell when decorated. -/
def leafDraws (ctx : Option Nat) (l : LeafData) : List DrawOp :=
  (if l.w.acceptsFocus then
    if ctx = some l.id then
      if l.w.captured then
        [DrawOp.glyph (toUInt8c l.x) (toUInt8c l.y) 62,
         DrawOp.glyph (toUInt8c (l.x + (l.width : Int) + 1)) (toUInt8c l.y) 60]
      else
        [DrawOp.glyph (toUInt8c l.x) (toUInt8c l.y) 60,
         DrawOp.glyph (toUInt8c (l.x + (l.width : Int) + 1)) (toUInt8c l.y) 62]
    else
      [DrawOp.glyph (toUInt8c l.x) (toUInt8c l.y) 91,
       DrawOp.glyph (toUInt8c (l.x + (l.width : Int) + 1)) (toUInt8c l.y) 93]
  else [])
  ++ [DrawOp.text (toUInt8c (l.x + (if l.w.acceptsFocus then 1 else 0))) (toUInt8c l.y) l.id]

mutual

/-- `paint` under virtual dispatch, returning the new state and the
draws.  A leaf runs `Label::paint` (clear the dirty flag, draw); a plain
container runs `Container::paint` (paint every dirty child); a scroll
container runs `ScrollContainer::paint`: `Component::paint`, then if
`scrollNeeded()` blank the viewport rows, offset the direct children so
the focus holder's row meets the edge it crossed, record the focus
holder in `lastFocusHolder_` and `repaint()` the children; finally paint
the dirty children whose row is inside the viewport and `clearDirty()`
the rest. -/
def paintComp (ctx : Option Nat) : Comp → Comp × List DrawOp
  | .leaf l => (.leaf { l with dirty := false }, leafDraws ctx l)
  | .cont d cs =>
    let p := paintList ctx cs
    (.cont d p.1, p.2)
  | .scroll d cs =>
    let d0 := { d with dirtySelf := false }
    if scrollNeeded ctx d0 cs then
      let fy := (ctx.bind (findYList cs)).getD 0
      let yStart := toUInt8c d0.y
      let yEnd := toUInt8c (d0.y + (d0.height : Int) - 1)
      let cs1 := repaintList (offsetList cs 0 (if yEnd < fy then yEnd - fy else yStart - fy))
      let d1 := { d0 with lastFocusHolder := ctx }
      let p := scPaintList ctx d1.y d1.height cs1
      (.scroll d1 p.1,
        ((List.range d0.height).map
          (fun i => DrawOp.blank (toUInt8c d0.x) (toUInt8c (d0.y + (i : Int))))) ++ p.2)
    else
      let p := scPaintList ctx d0.y d0.height cs
      (.scroll d0 p.1, p.2)
termination_by c => 3 * csizeComp c
decreasing_by
  all_goals simp [csizeComp, csizeList_offsetList, csize_repaint.2]
  all_goals omega

def paintList (ctx : Option Nat) : List Comp → List Comp × List DrawOp
  | [] => ([], [])
  | c :: rest =>
    if dirtyComp ctx c then
      let p := paintComp ctx c
      let q := paintList ctx rest
      (p.1 :: q.1, p.2 ++ q.2)
    else
      let q := paintList ctx rest
      (c :: q.1, q.2)
termination_by cs => 3 * csizeList cs + 1
decreasing_by
  all_goals have := csizeComp_pos c
  all_goals simp [csizeList]
  all_goals omega

/-- The child loop of `ScrollContainer::paint` after the scroll
decision: `scY`/`scH` are the container's own `y_` and `height_`. -/
def scPaintList (ctx : Option Nat) (scY : Int) (scH : Nat) :
    List Comp → List Comp × List DrawOp
  | [] => ([], [])
  | c :: rest =>
    if dirtyComp ctx c ∧ scY ≤ compY c ∧ compY c < scY + (scH : Int) then
      let p := paintComp ctx c
      let q := scPaintList ctx scY scH rest
      (p.1 :: q.1, p.2 ++ q.2)
    else
      let q := scPaintList ctx scY scH rest
      (clearDirty c :: q.1, q.2)
termination_by cs => 3 * csizeList cs + 1
decreasing_by
  all_goals have := csizeComp_pos c
  all_goals simp [csizeList]
  all_goals omega

end

/-!
## handleInputEvent dispatch
-/

/-- `handleInputEvent` of each concrete widget (the `Component` default
for Label): the updated leaf and the returned boolean.  `repaint()` and
`setText` calls inside the handlers set the leaf's dirty flag; `Input`'s
character scrolling uses `defaultCharSet`, which its constructor
installs. -/
def leafHandle (l : LeafData) (x : Int) (y : Int) (selected cancelled : Bool) :
    LeafData × Bool :=
  match l.w with
  | .label => (l, false)
  | .button _ => ({ l with w := .button selected }, false)
  | .checkbox b =>
    if selected then ({ l with w := .checkbox (!b), dirty := true }, false)
    else (l, false)
  | .list w =>
    let p := w.handleInputEvent x y selected cancelled
    ({ l with w := (.list p.1),
              dirty := l.dirty || (w.captured && !(y == 0)) || selected }, p.2)
  | .input w =>
    let w1 :=
      if w.captured ∧ y ≠ 0 then
        if w.selecting then
          let cur := w.text.getD w.position.toNat 0
          let idx := RangeCharSet.indexOf defaultCharSet cur
          let tgt :=
            if y < 0 then RangeCharSet.charAt defaultCharSet (max (idx + y) 0)
            else RangeCharSet.charAt defaultCharSet
              (min (idx + y) (RangeCharSet.size defaultCharSet - 1))
          { w with text := w.text.set w.position.toNat (toUInt8c tgt).toNat }
        else
          let p2 := toInt8c (w.position + y)
          { w with position := p2,
                   captured := !(decide (p2 < 0) || decide ((l.width : Int) ≤ p2))
                     && w.captured }
      else w
    let w2 :=
      if selected then
        if w1.captured then { w1 with selecting := !w1.selecting }
        else { w1 with captured := true, position := 0, selecting := false }
      else w1
    ({ l with w := (.input w2),
              dirty := l.dirty || (w.captured && !(y == 0)) || selected }, w2.captured)

mutual

/-- Dispatch `focusHolder_->handleInputEvent(...)`: locate the leaf with
the focus holder's id and apply its handler; `none` when no such leaf
exists (a dangling focus pointer, which the C++ would dereference
blindly). -/
def handleAtComp (i : Nat) (x y : Int) (sel can : Bool) : Comp → Option (Comp × Bool)
  | .leaf l =>
    if l.id = i then
      let p := leafHandle l x y sel can
      some (.leaf p.1, p.2)
    else none
  | .cont d cs =>
    match handleAtList i x y sel can cs with
    | some (cs2, b) => some (.cont d cs2, b)
    | none => none
  | .scroll d cs =>
    match handleAtList i x y sel can cs with
    | some (cs2, b) => some (.scroll d cs2, b)
    | none => none

def handleAtList (i : Nat) (x y : Int) (sel can : Bool) :
    List Comp → Option (List Comp × Bool)
  | [] => none
  | c :: rest =>
    match handleAtComp i x y sel can c with
    | some (c2, b) => some (c2 :: rest, b)
    | none =>
      match handleAtList i x y sel can rest with
      | some (cs2, b) => some (c :: cs2, b)
      | none => none

end

mutual

/-- `oldFocusHolder->repaint()` / `focusHolder_->repaint()` on a single
leaf component, located by id. -/
def repaintAtComp (i : Nat) : Comp → Comp
  | .leaf l => if l.id = i then .leaf { l with dirty := true } else .leaf l
  | .cont d cs => .cont d (repaintAtList i cs)
  | .scroll d cs => .scroll d (repaintAtList i cs)

def repaintAtList (i : Nat) : List Comp → List Comp
  | [] => []
  | c :: rest => repaintAtComp i c :: repaintAtList i rest

end

/-!
## Screen
-/

/-- What `getInputDeltas` reports for one frame. -/
structure InputState where
  x : Int
  y : Int
  selected : Bool
  cancelled : Bool
  deriving Repr, DecidableEq

/-- The `Screen` state: the root container's children plus the cursor
and focus bookkeeping of `Screen::Screen`.  The Screen's own `x_`/`y_`
are the zeros `Component::Component` writes. -/
structure ScreenState where
  children : List Comp
  cleared : Bool
  focusHolder : Option Nat
  focusHolderSelected : Bool
  annoyingBugWorkedAround : Bool
  firstUpdateCompleted : Bool
  deriving Repr

/-- One call of `Screen::update` without its final first-frame
workaround: clear once, `Container::update`, input dispatch (capture
first, then select, then focus movement with one null-current retry),
null-focus recovery, focus-change repaints, paint.  `none` models the
crash of dereferencing a NULL `focusHolder_` (a `selected` press with no
focus holder resolved, or a focus-change repaint when no eligible leaf
exists). -/
def screenFrame (st : ScreenState) (inp : InputState) : Option (ScreenState × List DrawOp) :=
  let cs1 := updateList
    (if st.firstUpdateCompleted then st.children else offsetList st.children 0 0)
  let oldFocusHolder := st.focusHolder
  let step : Option (List Comp × Option Nat × Bool) :=
    if inp.x ≠ 0 ∨ inp.y ≠ 0 ∨ inp.selected ∨ inp.cancelled then
      if st.focusHolderSelected then
        match st.focusHolder with
        | none => none
        | some fh =>
          match handleAtList fh inp.x inp.y inp.selected inp.cancelled cs1 with
          | some (cs2, b) => some (cs2, st.focusHolder, b)
          | none => none
      else if inp.selected then
        match st.focusHolder with
        | none => none
        | some fh =>
          match handleAtList fh inp.x inp.y inp.selected inp.cancelled cs1 with
          | some (cs2, b) => some (cs2, st.focusHolder, b)
          | none => none
      else if 0 < inp.y then
        let f1 := nextFocusHolder cs1 st.focusHolder false
        some (cs1, if f1.isNone then nextFocusHolder cs1 none false else f1,
          st.focusHolderSelected)
      else if inp.y < 0 then
        let f1 := nextFocusHolder cs1 st.focusHolder true
        some (cs1, if f1.isNone then nextFocusHolder cs1 none true else f1,
          st.focusHolderSelected)
      else some (cs1, st.focusHolder, st.focusHolderSelected)
    else some (cs1, st.focusHolder, st.focusHolderSelected)
  match step with
  | none => none
  | some (cs2, fh1, sel1) =>
    let fh2 := if fh1.isNone then nextFocusHolder cs2 none false else fh1
    let csOpt : Option (List Comp) :=
      if oldFocusHolder ≠ fh2 then
        let cs3 := match oldFocusHolder with
          | some o => repaintAtList o cs2
          | none => cs2
        match fh2 with
        | none => none
        | some f => some (repaintAtList f cs3)
      else some cs2
    match csOpt with
    | none => none
    | some cs4 =>
      let p := paintList fh2 cs4
      some ({ st with children := p.1, cleared := true, focusHolder := fh2,
                      focusHolderSelected := sel1, firstUpdateCompleted := true }, p.2)

/-- `Screen::update` in full: the frame, then — only when
`annoyingBugWorkedAround_` is still false — the documented workaround
`repaint()` that re-marks the whole tree dirty and sets the flag. -/
def screenUpdate (st : ScreenState) (inp : InputState) : Option (ScreenState × List DrawOp) :=
  match screenFrame st inp with
  | none => none
  | some (st1, draws) =>
    if st.annoyingBugWorkedAround then some (st1, draws)
    else some ({ st1 with children := repaintList st1.children,
                          annoyingBugWorkedAround := true }, draws)

/-!
## Container child storage
-/

/-- The `components_` array bookkeeping of one `Container`
(`componentsLength_` and `componentCount_` are `uint8_t`). -/
structure ContainerMem where
  components : List Comp
  componentsLength : Nat
  componentCount : Nat
  deriving Repr

/-- A `Container` as `Container::Container()` builds it: no storage. -/
def ContainerMem.empty : ContainerMem := ⟨[], 0, 0⟩

/-- `Container::add(component, x, y)`: grow the backing array by the
doubling-plus-one rule when full (`components_` is null exactly when
`componentsLength_` is 0, so the source's `!components_ ||
componentsLength_ <= componentCount_` test reduces to the length test),
store the component at index `componentCount_++`, set its location and
`repaint()` it.  `none` when the store would write past the array (the
C++ writes out of bounds there). -/
def ContainerMem.add (m : ContainerMem) (c : Comp) (x y : Int) : Option ContainerMem :=
  let len := if m.componentsLength ≤ m.componentCount
    then (2 * m.componentsLength + 1) % 256 else m.componentsLength
  if m.componentCount < len then
    some { components := m.components ++ [repaintComp (setLoc c x y)],
           componentsLength := len,
           componentCount := (m.componentCount + 1) % 256 }
  else none

/-- A sequence of `add` calls. -/
def ContainerMem.addAll (m : ContainerMem) : List (Comp × Int × Int) → Option ContainerMem
  | [] => some m
  | a :: rest =>
    match m.add a.1 a.2.1 a.2.2 with
    | some m2 => m2.addAll rest
    | none => none

/-!
## Observation helpers used by the statements
-/

/-- The child list of a component. -/
def childrenOf : Comp → List Comp
  | .leaf _ => []
  | .cont _ cs => cs
  | .scroll _ cs => cs

/-- The `y_` of the direct leaf child with the given id (first match;
no descent into sub-containers). -/
def directLeafY : List Comp → Nat → Option Int
  | [], _ => none
  | .leaf l :: rest, i => if l.id = i then some l.y else directLeafY rest i
  | .cont _ _ :: rest, i => directLeafY rest i
  | .scroll _ _ :: rest, i => directLeafY rest i

mutual

/-- No `ScrollContainer` anywhere in the component. -/
def scFreeComp : Comp → Bool
  | .leaf _ => true
  | .cont _ cs => scFreeList cs
  | .scroll _ _ => false

def scFreeList : List Comp → Bool
  | [] => true
  | c :: rest => scFreeComp c && scFreeList rest

end

mutual

/-- No `ScrollContainer` nested inside another `ScrollContainer`. -/
def noNestComp : Comp → Bool
  | .leaf _ => true
  | .cont _ cs => noNestList cs
  | .scroll _ cs => scFreeList cs

def noNestList : List Comp → Bool
  | [] => true
  | c :: rest => noNestComp c && noNestList rest

end

mutual

/-- A paint-stable state: every leaf is clean, and every scroll
container has `scrollNeeded()` false with its in-viewport children
stable (an out-of-viewport child may carry stale dirt — the paint loop
only clears its flag without drawing). -/
def settledComp (ctx : Option Nat) : Comp → Prop
  | .leaf l => l.dirty = false
  | .cont _ cs => settledList ctx cs
  | .scroll d cs => scrollNeeded ctx d cs = false ∧ settledVis ctx d.y d.height cs

def settledList (ctx : Option Nat) : List Comp → Prop
  | [] => True
  | c :: rest => settledComp ctx c ∧ settledList ctx rest

def settledVis (ctx : Option Nat) (scY : Int) (scH : Nat) : List Comp → Prop
  | [] => True
  | c :: rest =>
    ((scY ≤ compY c ∧ compY c < scY + (scH : Int)) → settledComp ctx c)
    ∧ settledVis ctx scY scH rest

end

mutual

/-- The component with every dirty flag (its own and its descendants')
erased: the part of the state that painting a scroll-free subtree never
changes. -/
def chassisComp : Comp → Comp
  | .leaf l => .leaf { l with dirty := false }
  | .cont d cs => .cont { d with dirtySelf := false } (chassisList cs)
  | .scroll d cs => .scroll { d with dirtySelf := false } (chassisList cs)

def chassisList : List Comp → List Comp
  | [] => []
  | c :: rest => chassisComp c :: chassisList rest

end

namespace RangeCharSet

/-!
## RangeCharSet lemmas
-/

theorem mem_block {a : Nat} {r : Nat × Nat} : a ∈ block r ↔ r.1 ≤ a ∧ a ≤ r.2 := by
  unfold block
  simp only [List.mem_map, List.mem_range]
  constructor
  · rintro ⟨k, hk, rfl⟩
    omega
  · rintro ⟨h1, h2⟩
    exact ⟨a - r.1, by omega, by omega⟩

theorem nodup_block (r : Nat × Nat) : (block r).Nodup :=
  List.Nodup.map (fun a b h => by omega) (List.nodup_range _)

theorem length_chars (s : RangeCharSet) : (chars s).length = totalWidth s := by
  unfold chars totalWidth
  rw [List.length_flatMap]
  congr 1
  apply List.map_congr_left
  intro r _
  simp [block]

theorem nodup_chars (s : RangeCharSet) (hw : wfRanges s) : (chars s).Nodup := by
  unfold chars
  rw [List.flatMap_def, List.nodup_flatten]
  refine ⟨?_, ?_⟩
  · intro l hl
    obtain ⟨r, _, rfl⟩ := List.mem_map.mp hl
    exact nodup_block r
  · refine List.Pairwise.map block ?_ hw.2.1
    intro r q hrq a ha hq
    have h1 := mem_block.mp ha
    have h2 := mem_block.mp hq
    omega

theorem intWidthSum_eq (rs : List (Nat × Nat)) (hb : ∀ r ∈ rs, r.1 ≤ r.2) :
    (rs.map (fun r => (r.2 : Int) + 1 - (r.1 : Int))).sum
      = (((rs.map (fun r => r.2 + 1 - r.1)).sum : Nat) : Int) := by
  induction rs with
  | nil => simp
  | cons r rest ih =>
    have hr := hb r (by simp)
    have hrest : ∀ q ∈ rest, q.1 ≤ q.2 := fun q hq => hb q (by simp [hq])
    simp only [List.map_cons, List.sum_cons, ih hrest]
    push_cast [Nat.sub_add_cancel]
    omega

theorem size_fold (rs : List (Nat × Nat)) (acc : Int)
    (hb : ∀ r ∈ rs, r.1 ≤ r.2 ∧ r.2 ≤ 255)
    (h0 : 0 ≤ acc)
    (hle : acc + (rs.map (fun r => (r.2 : Int) + 1 - (r.1 : Int))).sum ≤ 255) :
    rs.foldl (fun sz r => toUInt8c (sz + ((r.2 : Int) - (r.1 : Int)) + 1)) acc
      = acc + (rs.map (fun r => (r.2 : Int) + 1 - (r.1 : Int))).sum := by
  induction rs generalizing acc with
  | nil => simp
  | cons r rest ih =>
    have hr := hb r (by simp)
    have hrest : ∀ q ∈ rest, q.1 ≤ q.2 ∧ q.2 ≤ 255 := fun q hq => hb q (by simp [hq])
    have hsumnn : 0 ≤ (rest.map (fun q => (q.2 : Int) + 1 - (q.1 : Int))).sum := by
      apply List.sum_nonneg
      intro x hx
      obtain ⟨q, hq, rfl⟩ := List.mem_map.mp hx
      have := hrest q hq
      omega
    simp only [List.foldl_cons, List.map_cons, List.sum_cons] at hle ⊢
    rw [toUInt8c_id (by omega) (by omega)]
    rw [ih _ hrest (by omega) (by omega)]
    ring

theorem size_eq_totalWidth (s : RangeCharSet) (hw : wfRanges s) :
    size s = (totalWidth s : Int) := by
  have hb : ∀ r ∈ s.ranges, r.1 ≤ r.2 ∧ r.2 ≤ 255 := hw.1
  have hb1 : ∀ r ∈ s.ranges, r.1 ≤ r.2 := fun r hr => (hb r hr).1
  have hsum := intWidthSum_eq s.ranges hb1
  have h255 : (s.ranges.map (fun r => (r.2 : Int) + 1 - (r.1 : Int))).sum ≤ 255 := by
    rw [hsum]
    have := hw.2.2
    unfold totalWidth at this
    omega
  unfold size
  rw [size_fold s.ranges 0 hb le_rfl (by omega)]
  rw [hsum]
  unfold totalWidth
  omega

theorem charAtAux_getD (rs : List (Nat × Nat)) (hb : ∀ r ∈ rs, r.1 ≤ r.2 ∧ r.2 ≤ 255)
    (cur : Int) (i : Nat) (hi : i < (rs.flatMap block).length) :
    charAtAux rs cur (cur + (i : Int)) = (((rs.flatMap block).getD i 0 : Nat) : Int) := by
  induction rs generalizing cur i with
  | nil => simp at hi
  | cons r rest ih =>
    obtain ⟨lo, hi2⟩ := r
    have hr := hb (lo, hi2) (by simp)
    have hrest : ∀ q ∈ rest, q.1 ≤ q.2 ∧ q.2 ≤ 255 := fun q hq => hb q (by simp [hq])
    have hw0 : (block (lo, hi2)).length = hi2 + 1 - lo := by simp [block]
    rw [List.flatMap_cons] at hi ⊢
    rw [List.length_append, hw0] at hi
    by_cases hcase : i < hi2 + 1 - lo
    · have cond : cur ≤ cur + (i : Int) ∧ cur + (i : Int) ≤ cur + ((hi2 : Int) - (lo : Int)) :=
        ⟨by omega, by omega⟩
      unfold charAtAux
      rw [if_pos cond]
      have hlt : i < (block (lo, hi2)).length := by omega
      rw [List.getD_append _ _ _ _ hlt, List.getD_eq_getElem _ _ hlt]
      simp only [block, List.getElem_map, List.getElem_range]
      rw [toUInt8c_id (by omega) (by omega)]
      push_cast
      ring
    · have cond : ¬(cur ≤ cur + (i : Int) ∧ cur + (i : Int) ≤ cur + ((hi2 : Int) - (lo : Int))) := by
        rintro ⟨-, h2⟩
        omega
      unfold charAtAux
      rw [if_neg cond]
      have hstep : cur + (i : Int)
          = (cur + ((hi2 : Int) - (lo : Int)) + 1) + ((i - (hi2 + 1 - lo) : Nat) : Int) := by
        omega
      have hi3 : i - (hi2 + 1 - lo) < (rest.flatMap block).length := by omega
      rw [hstep, ih hrest _ _ hi3]
      have hge : (block (lo, hi2)).length ≤ i := by omega
      rw [List.getD_append_right _ _ _ _ hge, hw0]

theorem charAt_getD (s : RangeCharSet) (hw : wfRanges s) (i : Nat)
    (hi : i < (chars s).length) :
    charAt s (i : Int) = (((chars s).getD i 0 : Nat) : Int) := by
  have := charAtAux_getD s.ranges hw.1 0 i hi
  unfold charAt
  simpa using this

theorem chars_le_255 (s : RangeCharSet) (hw : wfRanges s) {a : Nat} (ha : a ∈ chars s) :
    a ≤ 255 := by
  unfold chars at ha
  obtain ⟨r, hr, hblk⟩ := List.mem_flatMap.mp ha
  have := mem_block.mp hblk
  have := hw.1 r hr
  omega

theorem mem_chars (s : RangeCharSet) {a : Nat} :
    a ∈ chars s ↔ ∃ r ∈ s.ranges, r.1 ≤ a ∧ a ≤ r.2 := by
  unfold chars
  rw [List.mem_flatMap]
  constructor
  · rintro ⟨r, hr, hblk⟩
    exact ⟨r, hr, mem_block.mp hblk⟩
  · rintro ⟨r, hr, h⟩
    exact ⟨r, hr, mem_block.mpr h⟩

theorem indexOfAux_none (s : RangeCharSet) (ch : Nat) (fuel i : Nat)
    (h : ∀ k, k < fuel → charAt s ((i + k : Nat) : Int) ≠ (ch : Int)) :
    indexOfAux s ch i fuel = -1 := by
  induction fuel generalizing i with
  | zero => rfl
  | succ fuel ih =>
    unfold indexOfAux
    rw [if_neg (by simpa using h 0 (by omega))]
    apply ih
    intro k hk
    have hh := h (k + 1) (by omega)
    have e : i + (k + 1) = i + 1 + k := by omega
    rw [e] at hh
    exact hh

theorem indexOfAux_least (s : RangeCharSet) (ch : Nat) (fuel i k0 : Nat)
    (hlt : k0 < fuel)
    (hhit : charAt s ((i + k0 : Nat) : Int) = (ch : Int))
    (hmin : ∀ k, k < k0 → charAt s ((i + k : Nat) : Int) ≠ (ch : Int)) :
    indexOfAux s ch i fuel = ((i + k0 : Nat) : Int) := by
  induction fuel generalizing i k0 with
  | zero => omega
  | succ fuel ih =>
    unfold indexOfAux
    by_cases h0 : k0 = 0
    · subst h0
      rw [if_pos (by simpa using hhit)]
      simp
    · rw [if_neg (by simpa using hmin 0 (by omega))]
      have hres := ih (i + 1) (k0 - 1) (by omega) (by
        have e : i + 1 + (k0 - 1) = i + k0 := by omega
        rw [e]
        exact hhit) (by
        intro k hk
        have hh := hmin (k + 1) (by omega)
        have e : i + (k + 1) = i + 1 + k := by omega
        rw [e] at hh
        exact hh)
      rw [hres]
      congr 1
      omega

theorem indexOfAux_some (s : RangeCharSet) (ch : Nat) (fuel i : Nat)
    (h : ∃ k, k < fuel ∧ charAt s ((i + k : Nat) : Int) = (ch : Int)) :
    ∃ m : Nat, indexOfAux s ch i fuel = (m : Int) ∧ charAt s (m : Int) = (ch : Int) := by
  induction fuel generalizing i with
  | zero =>
    obtain ⟨k, hk, -⟩ := h
    omega
  | succ fuel ih =>
    unfold indexOfAux
    by_cases hhead : charAt s (i : Int) = (ch : Int)
    · exact ⟨i, by rw [if_pos hhead], hhead⟩
    · rw [if_neg hhead]
      apply ih
      obtain ⟨k, hk, hhit⟩ := h
      rcases Nat.eq_zero_or_pos k with rfl | hkpos
      · simp at hhit
        exact absurd hhit hhead
      · exact ⟨k - 1, by omega, by
          have : i + 1 + (k - 1) = i + k := by omega
          rw [this]
          exact hhit⟩

/-- C7 (amended).  For every `RangeCharSet` whose inclusive ranges are
genuine (`first ≤ last ≤ 255`), pairwise disjoint and of total width at
most 255: `size()` equals the sum of the inclusive widths; for every
character present in some range, `charAt(indexOf(c)) = c`; for every
index `0 ≤ i < size()`, `indexOf(charAt(i)) = i`; and `indexOf` of a
character not present in any range is `-1`. -/
theorem c7_rangeCharSet_roundTrip (s : RangeCharSet) (hw : wfRanges s) :
    size s = (totalWidth s : Int)
    ∧ (∀ ch : Nat, (∃ r ∈ s.ranges, r.1 ≤ ch ∧ ch ≤ r.2) →
        charAt s (indexOf s ch) = (ch : Int))
    ∧ (∀ i : Nat, (i : Int) < size s → indexOfInt s (charAt s (i : Int)) = (i : Int))
    ∧ (∀ ch : Nat, ¬(∃ r ∈ s.ranges, r.1 ≤ ch ∧ ch ≤ r.2) → indexOf s ch = -1) := by
  have hn : size s = (totalWidth s : Int) := size_eq_totalWidth s hw
  have hlen : (chars s).length = totalWidth s := length_chars s
  have hfuel : (size s).toNat = (chars s).length := by omega
  refine ⟨hn, ?_, ?_, ?_⟩
  · intro ch hpres
    have hmem : ch ∈ chars s := (mem_chars s).mpr hpres
    obtain ⟨i, hilt, hieq⟩ := List.getElem_of_mem hmem
    have hhit : charAt s ((0 + i : Nat) : Int) = (ch : Int) := by
      simp only [Nat.zero_add]
      rw [charAt_getD s hw i hilt, List.getD_eq_getElem _ _ hilt, hieq]
    obtain ⟨m, hm, hcm⟩ := indexOfAux_some s ch (size s).toNat 0 ⟨i, by omega, hhit⟩
    unfold indexOf
    rw [hm]
    exact hcm
  · intro i hi
    have hilt : i < (chars s).length := by omega
    have hci : charAt s (i : Int) = (((chars s).getD i 0 : Nat) : Int) :=
      charAt_getD s hw i hilt
    have hgd : (chars s).getD i 0 = (chars s).get ⟨i, hilt⟩ := by
      rw [List.getD_eq_getElem _ _ hilt]
      rfl
    have hbound : (chars s).getD i 0 ≤ 255 := by
      rw [hgd]
      exact chars_le_255 s hw (List.getElem_mem hilt)
    have hstep : indexOfInt s (charAt s (i : Int)) = indexOf s ((chars s).getD i 0) := by
      unfold indexOfInt
      rw [hci, toUInt8c_id (by omega) (by omega)]
      simp
    rw [hstep]
    have hnodup := nodup_chars s hw
    unfold indexOf
    have hleast := indexOfAux_least s ((chars s).getD i 0) (size s).toNat 0 i (by omega)
      (by
        simp only [Nat.zero_add]
        rw [charAt_getD s hw i hilt])
      (by
        intro k hk
        have hklt : k < (chars s).length := by omega
        simp only [Nat.zero_add]
        rw [charAt_getD s hw k hklt]
        intro heq
        have heq2 : (chars s).getD k 0 = (chars s).getD i 0 := by exact_mod_cast heq
        rw [List.getD_eq_getElem _ _ hklt, List.getD_eq_getElem _ _ hilt] at heq2
        rw [hnodup.getElem_inj_iff] at heq2
        omega)
    rw [hleast]
    simp
  · intro ch habs
    unfold indexOf
    apply indexOfAux_none
    intro k hk
    have hklt : k < (chars s).length := by omega
    simp only [Nat.zero_add]
    rw [charAt_getD s hw k hklt]
    intro heq
    have heq2 : (chars s).getD k 0 = ch := by exact_mod_cast heq
    have hmem : ch ∈ chars s := by
      rw [List.getD_eq_getElem _ _ hklt] at heq2
      exact heq2 ▸ List.getElem_mem hklt
    exact habs ((mem_chars s).mp hmem)

/-- C7 counterexample.  The claim as stated quantifies over every
constructed `RangeCharSet`; with the overlapping ranges
`{(65,65), (65,65)}` the set has `size() = 2` and `charAt(1) = 65`, but
`indexOf(charAt(1)) = 0 ≠ 1`, so index→character and character→index are
not mutually inverse. -/
theorem c7_overlap_breaks_roundTrip :
    size ⟨[(65, 65), (65, 65)]⟩ = 2
    ∧ charAt ⟨[(65, 65), (65, 65)]⟩ 1 = 65
    ∧ indexOfInt ⟨[(65, 65), (65, 65)]⟩ (charAt ⟨[(65, 65), (65, 65)]⟩ 1) = 0 := by
  refine ⟨by decide, by decide, by decide⟩

/-- C7 witness: the concrete `floatingPointCharSet` satisfies the
hypotheses of the round-trip theorem, which then applies to it. -/
theorem c7_roundTrip_witness :
    wfRanges ScreenUi.floatingPointCharSet
    ∧ (size ScreenUi.floatingPointCharSet = (totalWidth ScreenUi.floatingPointCharSet : Int)
      ∧ (∀ ch : Nat, (∃ r ∈ ScreenUi.floatingPointCharSet.ranges, r.1 ≤ ch ∧ ch ≤ r.2) →
          charAt ScreenUi.floatingPointCharSet (indexOf ScreenUi.floatingPointCharSet ch) = (ch : Int))
      ∧ (∀ i : Nat, (i : Int) < size ScreenUi.floatingPointCharSet →
          indexOfInt ScreenUi.floatingPointCharSet
            (charAt ScreenUi.floatingPointCharSet (i : Int)) = (i : Int))
      ∧ (∀ ch : Nat, ¬(∃ r ∈ ScreenUi.floatingPointCharSet.ranges, r.1 ≤ ch ∧ ch ≤ r.2) →
          indexOf ScreenUi.floatingPointCharSet ch = -1)) :=
  ⟨by decide, c7_rangeCharSet_roundTrip ScreenUi.floatingPointCharSet (by decide)⟩

end RangeCharSet

namespace ListWidget

/-!
## C8: List index clamping
-/

/-- C8 (amended).  For every `List` with `1 ≤ itemCount ≤ 255` (a
`uint8_t` field) whose selected index is in range, `handleInputEvent`
leaves the selected index within `[0, itemCount-1]` for every input;
`setSelectedIndex` itself stores its argument without clamping. -/
theorem c8_handleInputEvent_clamps (w : ListWidget)
    (hc : w.itemCount ≤ 255) (h1 : 1 ≤ w.itemCount)
    (h2 : w.selectedIndex ≤ w.itemCount - 1)
    (x y : Int) (selected cancelled : Bool) :
    (w.handleInputEvent x y selected cancelled).1.selectedIndex ≤ w.itemCount - 1
    ∧ (w.handleInputEvent x y selected cancelled).1.itemCount = w.itemCount := by
  unfold handleInputEvent
  by_cases hcap : w.captured ∧ y ≠ 0
  · rw [if_pos hcap]
    by_cases hy : y < 0
    · rw [if_pos hy]
      have hub : max ((w.selectedIndex : Int) + y) 0 ≤ (w.selectedIndex : Int) :=
        max_le (by omega) (by omega)
      have hlb : 0 ≤ max ((w.selectedIndex : Int) + y) 0 := le_max_right _ _
      unfold setSelectedIndex toUInt8c
      rw [Int.emod_eq_of_lt hlb (by omega)]
      constructor
      · simp only []
        split <;> simp <;> omega
      · split <;> rfl
    · rw [if_neg hy]
      have hub : min ((w.selectedIndex : Int) + y) ((w.itemCount : Int) - 1)
          ≤ (w.itemCount : Int) - 1 := min_le_right _ _
      have hlb : 0 ≤ min ((w.selectedIndex : Int) + y) ((w.itemCount : Int) - 1) :=
        le_min (by omega) (by omega)
      unfold setSelectedIndex toUInt8c
      rw [Int.emod_eq_of_lt hlb (by omega)]
      constructor
      · split <;> simp <;> omega
      · split <;> rfl
  · rw [if_neg hcap]
    constructor
    · split <;> simpa using h2
    · split <;> rfl

/-- C8 witness: a captured three-item list at index 1 given a delta of
`+5` stays within `[0, 2]`. -/
theorem c8_handleInputEvent_clamps_witness :
    (ListWidget.handleInputEvent ⟨3, 1, true⟩ 0 5 false false).1.selectedIndex ≤ 3 - 1
    ∧ (ListWidget.handleInputEvent ⟨3, 1, true⟩ 0 5 false false).1.itemCount = 3 :=
  c8_handleInputEvent_clamps ⟨3, 1, true⟩ (by decide) (by decide) (by decide) 0 5 false false

/-- C8 counterexample.  `setSelectedIndex` performs no clamping: on a
one-item list (valid indices `[0, 0]`) it stores 5. -/
theorem c8_setSelectedIndex_no_clamp :
    (ListWidget.setSelectedIndex ⟨1, 0, false⟩ 5).selectedIndex = 5
    ∧ ¬((ListWidget.setSelectedIndex ⟨1, 0, false⟩ 5).selectedIndex ≤ 1 - 1) := by
  refine ⟨by decide, by decide⟩

end ListWidget

/-!
## C1, C2, C4: the focus-search and update bugs, evaluated

The reverse loop of `Container::nextFocusHolder` runs
`for (i = count-1; i > 0; i--)`: index 0 is never visited, unlike the
forward loop's `i < count`.  `Screen::update` calls
`focusHolder_->handleInputEvent(...)` on a `selected` press without a
null check.  The theorems below evaluate the embedded code at the
failing inputs.
-/

/-- C1: at the one-button tree, the reverse scan with no current holder
returns null where the spec's reverse pre-order scan
(`specNextFocusHolder`) returns the only eligible leaf; with two buttons
and the second as current, the reverse scan returns null instead of the
first button.  The forward direction agrees with the spec at the same
trees. -/
theorem c1_nextFocusHolder_reverse_skips_index0 :
    nextFocusHolder [Comp.leaf ⟨1, 0, 0, 2, false, .button false⟩] none true = none
    ∧ specNextFocusHolder [Comp.leaf ⟨1, 0, 0, 2, false, .button false⟩] none true = some 1
    ∧ nextFocusHolder [Comp.leaf ⟨1, 0, 0, 2, false, .button false⟩] none false = some 1
    ∧ nextFocusHolder [Comp.leaf ⟨1, 0, 0, 2, false, .button false⟩,
        Comp.leaf ⟨2, 0, 1, 2, false, .button false⟩] (some 2) true = none
    ∧ specNextFocusHolder [Comp.leaf ⟨1, 0, 0, 2, false, .button false⟩,
        Comp.leaf ⟨2, 0, 1, 2, false, .button false⟩] (some 2) true = some 1 :=
  ⟨rfl, rfl, rfl, rfl, rfl⟩

/-- C2: two eligible buttons, focus on the second, idle state, `dy = -1`:
`Screen::update` leaves focus on the second button (the reverse search
skips index 0, so it finds nothing and the null-current retry returns
the last eligible leaf again), where the claim's reverse order requires
focus to move to the first button.  With `dy = +1` the forward search
wraps to the first button as claimed. -/
theorem c2_reverse_focus_move_stays :
    (screenUpdate
      { children := [Comp.leaf ⟨1, 0, 0, 2, false, .button false⟩,
                     Comp.leaf ⟨2, 0, 1, 2, false, .button false⟩],
        cleared := true, focusHolder := some 2, focusHolderSelected := false,
        annoyingBugWorkedAround := true, firstUpdateCompleted := true }
      ⟨0, -1, false, false⟩).map (fun p => p.1.focusHolder) = some (some 2)
    ∧ (screenUpdate
      { children := [Comp.leaf ⟨1, 0, 0, 2, false, .button false⟩,
                     Comp.leaf ⟨2, 0, 1, 2, false, .button false⟩],
        cleared := true, focusHolder := some 2, focusHolderSelected := false,
        annoyingBugWorkedAround := true, firstUpdateCompleted := true }
      ⟨0, 1, false, false⟩).map (fun p => p.1.focusHolder) = some (some 1) := by
  constructor <;>
    simp [screenUpdate, screenFrame, updateList, updateComp, Widget.update, offsetList,
      setLoc, compX, compY, toInt8c, toUInt8c, nextFocusHolder, nfhFwd, nfhRev, nfhComp,
      Widget.acceptsFocus, repaintAtList, repaintAtComp, paintList, paintComp, scPaintList,
      dirtyComp, dirtyList, scrollNeeded, leafDraws, clearDirty, findYList, findYComp,
      containsList, containsComp]

/-- C4: with a tree containing no focus-eligible leaves (one Label), no
focus holder is ever resolved, and a frame whose input reports a
`selected` press executes `focusHolder_->handleInputEvent(...)` through
the NULL `focusHolder_` — the update does not complete (modelled as
`none`).  The same state under a pure movement frame completes. -/
theorem c4_select_with_no_focus_holder_crashes :
    screenUpdate
      { children := [Comp.leaf ⟨7, 0, 0, 2, false, .label⟩],
        cleared := false, focusHolder := none, focusHolderSelected := false,
        annoyingBugWorkedAround := false, firstUpdateCompleted := false }
      ⟨0, 0, true, false⟩ = none
    ∧ (screenUpdate
      { children := [Comp.leaf ⟨7, 0, 0, 2, false, .label⟩],
        cleared := false, focusHolder := none, focusHolderSelected := false,
        annoyingBugWorkedAround := false, firstUpdateCompleted := false }
      ⟨0, 1, false, false⟩).isSome = true := by
  constructor <;>
    simp [screenUpdate, screenFrame, updateList, updateComp, Widget.update, offsetList,
      setLoc, compX, compY, toInt8c, toUInt8c, nextFocusHolder, nfhFwd, nfhRev, nfhComp,
      Widget.acceptsFocus, repaintAtList, repaintAtComp, paintList, paintComp, scPaintList,
      dirtyComp, dirtyList, scrollNeeded, leafDraws, clearDirty, findYList, findYComp,
      containsList, containsComp]

/-!
## C3: the scroll adjustment

`ScrollContainer::paint` adjusts by `offsetChildren`, which relocates
only the direct children, while `scrollNeeded()`/`contains()` search the
subtree recursively.  For a focus holder that is a direct child the
shift is exact; a nested focus holder's own row never moves (its parent
container's `y_` moves instead), so the claimed invariant fails there.
-/

theorem directLeafY_repaintList (cs : List Comp) (i : Nat) :
    directLeafY (repaintList cs) i = directLeafY cs i := by
  induction cs with
  | nil => rfl
  | cons c rest ih =>
    cases c with
    | leaf l => simp [repaintList, repaintComp, directLeafY, ih]
    | cont d cs2 => simp [repaintList, repaintComp, directLeafY, ih]
    | scroll d cs2 => simp [repaintList, repaintComp, directLeafY, ih]

theorem directLeafY_offsetList (cs : List Comp) (i : Nat) (dy y0 : Int)
    (h : directLeafY cs i = some y0) :
    directLeafY (offsetList cs 0 dy) i = some (toInt8c (y0 + dy)) := by
  induction cs with
  | nil => simp [directLeafY] at h
  | cons c rest ih =>
    cases c with
    | leaf l =>
      by_cases hid : l.id = i
      · simp [directLeafY, hid] at h
        simp [offsetList, setLoc, directLeafY, hid, compY, h]
      · simp [directLeafY, hid] at h
        simpa [offsetList, setLoc, directLeafY, hid] using ih h
    | cont d cs2 =>
      simp [directLeafY] at h
      simpa [offsetList, setLoc, directLeafY] using ih h
    | scroll d cs2 =>
      simp [directLeafY] at h
      simpa [offsetList, setLoc, directLeafY] using ih h

theorem directLeafY_scPaintList (ctx : Option Nat) (scY : Int) (scH : Nat)
    (cs : List Comp) (i : Nat) :
    directLeafY (scPaintList ctx scY scH cs).1 i = directLeafY cs i := by
  induction cs with
  | nil => simp [scPaintList]
  | cons c rest ih =>
    rw [scPaintList]
    split
    · cases c with
      | leaf l => simp [paintComp, directLeafY, ih]
      | cont d cs2 => simp [paintComp, directLeafY, ih]
      | scroll d cs2 =>
        simp only [paintComp]
        split <;> simp [directLeafY, ih]
    · cases c with
      | leaf l => simp [clearDirty, directLeafY, ih]
      | cont d cs2 => simp [clearDirty, directLeafY, ih]
      | scroll d cs2 => simp [clearDirty, directLeafY, ih]

/-- C3 (amended).  When `scrollNeeded()` triggers the scroll adjustment
and the focus holder is a direct child of the `ScrollContainer` — with
the viewport inside the machine ranges: `0 ≤ y_`, `1 ≤ height_`,
`y_ + height_ ≤ 128` — the adjustment is exact: a focus holder below the
bottom edge lands exactly on row `y_ + height_ - 1`, one above the top
edge exactly on row `y_`, and its new row lies within
`[y_, y_ + height_ - 1]`.  (For a nested focus holder the invariant
fails: see the counterexample.) -/
theorem c3_scroll_adjustment_exact (d : ScrollData) (cs : List Comp) (fh : Nat) (y0 : Int)
    (hy : findYList cs fh = some y0)
    (hd : directLeafY cs fh = some y0)
    (hsn : scrollNeeded (some fh) d cs = true)
    (hylb : 0 ≤ d.y) (hh : 1 ≤ d.height) (hub : d.y + (d.height : Int) ≤ 128) :
    directLeafY (childrenOf (paintComp (some fh) (Comp.scroll d cs)).1) fh
      = some (if d.y + (d.height : Int) - 1 < y0 then d.y + (d.height : Int) - 1 else d.y)
    ∧ ∀ y2, directLeafY (childrenOf (paintComp (some fh) (Comp.scroll d cs)).1) fh = some y2 →
        d.y ≤ y2 ∧ y2 ≤ d.y + (d.height : Int) - 1 := by
  have hcast : (1 : Int) ≤ (d.height : Int) := by exact_mod_cast hh
  have hEnd : toUInt8c (d.y + (d.height : Int) - 1) = d.y + (d.height : Int) - 1 :=
    toUInt8c_id (by omega) (by omega)
  have hStart : toUInt8c d.y = d.y := toUInt8c_id (by omega) (by omega)
  have hsn0 : scrollNeeded (some fh) { d with dirtySelf := false } cs = true := hsn
  have hmain : directLeafY (childrenOf (paintComp (some fh) (Comp.scroll d cs)).1) fh
      = some (if d.y + (d.height : Int) - 1 < y0 then d.y + (d.height : Int) - 1 else d.y) := by
    rw [paintComp]
    simp only [hsn0, if_true, Option.bind_eq_bind, Option.some_bind, hy, Option.getD_some,
      childrenOf, hEnd, hStart]
    rw [directLeafY_scPaintList, directLeafY_repaintList]
    by_cases hcond : d.y + (d.height : Int) - 1 < y0
    · rw [if_pos hcond, if_pos hcond,
        directLeafY_offsetList cs fh _ y0 hd]
      congr 1
      have : y0 + (d.y + (d.height : Int) - 1 - y0) = d.y + (d.height : Int) - 1 := by ring
      rw [this]
      exact toInt8c_id (by omega) (by omega)
    · rw [if_neg hcond, if_neg hcond,
        directLeafY_offsetList cs fh _ y0 hd]
      congr 1
      have : y0 + (d.y - y0) = d.y := by ring
      rw [this]
      exact toInt8c_id (by omega) (by omega)
  refine ⟨hmain, ?_⟩
  intro y2 h2
  rw [hmain] at h2
  injection h2 with h2
  split at h2 <;> omega

/-- C3 counterexample.  A `ScrollContainer` at rows `[1, 2]` whose focus
holder sits inside a nested plain `Container` at absolute row 5:
`scrollNeeded()` is true (contains searches recursively), the paint's
`offsetChildren` moves only the nested container, and after the scroll
adjustment the focus holder's row is still 5 — outside `[1, 2]`. -/
theorem c3_nested_focus_left_outside :
    scrollNeeded (some 9) ⟨0, 1, 8, 2, false, true, none⟩
      [Comp.cont ⟨0, 1, false, true⟩ [Comp.leaf ⟨9, 0, 5, 1, false, .button false⟩]] = true
    ∧ findYComp (paintComp (some 9) (Comp.scroll ⟨0, 1, 8, 2, false, true, none⟩
        [Comp.cont ⟨0, 1, false, true⟩ [Comp.leaf ⟨9, 0, 5, 1, false, .button false⟩]])).1 9
      = some 5
    ∧ ¬((1 : Int) ≤ 5 ∧ (5 : Int) ≤ 1 + 2 - 1) := by
  refine ⟨by decide, ?_, by decide⟩
  simp [paintComp, scPaintList, paintList, scrollNeeded, containsList, containsComp,
    findYList, findYComp, repaintList, repaintComp, offsetList, setLoc, compX, compY,
    toInt8c, toUInt8c, dirtyComp, dirtyList, clearDirty, leafDraws]

/-- C3 witness: a direct-child focus holder at row 5 below a viewport of
rows `[1, 2]` is brought to exactly row 2. -/
theorem c3_scroll_adjustment_exact_witness :
    directLeafY (childrenOf (paintComp (some 4) (Comp.scroll ⟨0, 1, 8, 2, false, true, none⟩
      [Comp.leaf ⟨4, 0, 5, 1, false, .button false⟩])).1) 4 = some 2 := by
  have h := c3_scroll_adjustment_exact ⟨0, 1, 8, 2, false, true, none⟩
    [Comp.leaf ⟨4, 0, 5, 1, false, .button false⟩] 4 5 rfl rfl (by decide) (by decide)
    (by decide) (by decide)
  rw [h.1]
  norm_num

/-!
## C5: dirty propagation

`Container::dirty()` consults only its children, so a container is dirty
exactly while some non-container descendant's flag is set (plus any
`scrollNeeded` contribution); an empty container is never dirty, even
right after `repaint()`.
-/

theorem dirty_of_leafDirty :
    (∀ c, ∀ ctx : Option Nat, (∃ l ∈ leavesComp c, l.dirty = true) → dirtyComp ctx c = true)
    ∧ ∀ cs, ∀ ctx : Option Nat, (∃ l ∈ leavesList cs, l.dirty = true) → dirtyList ctx cs = true := by
  apply Comp.myInd
  · intro l ctx ⟨l2, hm, hd⟩
    simp [leavesComp] at hm
    subst hm
    simpa [dirtyComp] using hd
  · intro d cs h ctx hex
    simpa [dirtyComp] using h ctx (by simpa [leavesComp] using hex)
  · intro d cs h ctx hex
    have := h ctx (by simpa [leavesComp] using hex)
    simp [dirtyComp, this]
  · intro ctx ⟨l, hm, _⟩
    simp [leavesList] at hm
  · intro c cs hc hcs ctx ⟨l, hm, hd⟩
    simp only [leavesList, List.mem_append] at hm
    rcases hm with hm | hm
    · simp [dirtyList, hc ctx ⟨l, hm, hd⟩]
    · simp [dirtyList, hcs ctx ⟨l, hm, hd⟩]

theorem leaves_repaint :
    (∀ c, leavesComp (repaintComp c)
      = (leavesComp c).map (fun l => { l with dirty := true }))
    ∧ ∀ cs, leavesList (repaintList cs)
      = (leavesList cs).map (fun l => { l with dirty := true }) := by
  apply Comp.myInd
  · intro l
    rfl
  · intro d cs h
    simpa [repaintComp, leavesComp] using h
  · intro d cs h
    simpa [repaintComp, leavesComp] using h
  · rfl
  · intro c cs hc hcs
    simp [repaintList, leavesList, hc, hcs]

/-- C5 (amended).  For every container with at least one non-container
descendant, `dirty()` is true immediately after `repaint()`, and
`dirty()` stays true as long as some non-container descendant's dirty
flag remains set (i.e. until every such descendant has been painted).
An empty container reports `dirty() = false` even right after
`repaint()` — see the counterexample. -/
theorem c5_repaint_dirty_until_painted (ctx : Option Nat) (c : Comp)
    (hleaf : leavesComp c ≠ []) :
    dirtyComp ctx (repaintComp c) = true
    ∧ ∀ t : Comp, (∃ l ∈ leavesComp t, l.dirty = true) → dirtyComp ctx t = true := by
  refine ⟨?_, fun t hex => dirty_of_leafDirty.1 t ctx hex⟩
  apply dirty_of_leafDirty.1
  obtain ⟨l, hl⟩ := List.exists_mem_of_ne_nil _ hleaf
  refine ⟨{ l with dirty := true }, ?_, rfl⟩
  rw [leaves_repaint.1]
  exact List.mem_map_of_mem _ hl

/-- C5 counterexample.  `repaint()` on a childless container leaves
`dirty()` false: `Container::repaint` only marks children and
`Container::dirty` only consults children. -/
theorem c5_empty_container_not_dirty_after_repaint :
    dirtyComp none (repaintComp (Comp.cont ⟨0, 0, false, true⟩ [])) = false := rfl

/-- C5 witness: a container holding one Label leaf. -/
theorem c5_repaint_dirty_witness :
    dirtyComp none (repaintComp (Comp.cont ⟨0, 0, false, true⟩
      [Comp.leaf ⟨1, 0, 0, 2, false, .label⟩])) = true
    ∧ ∀ t : Comp, (∃ l ∈ leavesComp t, l.dirty = true) → dirtyComp none t = true :=
  c5_repaint_dirty_until_painted none
    (Comp.cont ⟨0, 0, false, true⟩ [Comp.leaf ⟨1, 0, 0, 2, false, .label⟩]) (by decide)

/-!
## C9: add() sequences
-/

theorem c9_addAll_aux (adds : List (Comp × Int × Int)) :
    ∀ m : ContainerMem,
      m.componentCount = m.components.length →
      m.componentCount ≤ m.componentsLength →
      (∃ k ≤ 8, m.componentsLength = 2 ^ k - 1) →
      m.componentCount + adds.length ≤ 255 →
      ∃ m2, m.addAll adds = some m2
        ∧ m2.components = m.components
            ++ adds.map (fun a => repaintComp (setLoc a.1 a.2.1 a.2.2))
        ∧ m2.componentCount = m.componentCount + adds.length := by
  induction adds with
  | nil =>
    intro m h1 h2 h3 h4
    exact ⟨m, rfl, by simp, by simp⟩
  | cons a rest ih =>
    intro m h1 h2 h3 h4
    obtain ⟨k, hk, hlen⟩ := h3
    have hrest : rest.length + 1 = (a :: rest).length := by simp
    have h254 : m.componentCount + rest.length ≤ 254 := by
      simp only [List.length_cons] at h4
      omega
    have h1pow : 1 ≤ (2 : Nat) ^ k := Nat.one_le_two_pow
    by_cases hgrow : m.componentsLength ≤ m.componentCount
    · have hcnt : m.componentCount = 2 ^ k - 1 := by omega
      have hk7 : k ≤ 7 := by
        by_contra hgt
        have h8 : (2 : Nat) ^ 8 ≤ 2 ^ k := Nat.pow_le_pow_right (by norm_num) (by omega)
        have : (256 : Nat) ≤ 2 ^ k := by norm_num at h8 ⊢; omega
        omega
      have h128 : (2 : Nat) ^ k ≤ 128 := by
        calc (2 : Nat) ^ k ≤ 2 ^ 7 := Nat.pow_le_pow_right (by norm_num) hk7
          _ = 128 := by norm_num
      have hval : 2 * m.componentsLength + 1 = 2 ^ (k + 1) - 1 := by
        rw [hlen, pow_succ]
        omega
      have hmod : (2 * m.componentsLength + 1) % 256 = 2 ^ (k + 1) - 1 := by
        rw [hval]
        apply Nat.mod_eq_of_lt
        rw [pow_succ]
        omega
      have hstep : m.add a.1 a.2.1 a.2.2 = some
          { components := m.components ++ [repaintComp (setLoc a.1 a.2.1 a.2.2)],
            componentsLength := 2 ^ (k + 1) - 1,
            componentCount := m.componentCount + 1 } := by
        unfold ContainerMem.add
        rw [if_pos hgrow, hmod, if_pos (by rw [pow_succ]; omega)]
        have : (m.componentCount + 1) % 256 = m.componentCount + 1 :=
          Nat.mod_eq_of_lt (by omega)
        rw [this]
      obtain ⟨m2, hall, hcomp, hcount⟩ := ih
        { components := m.components ++ [repaintComp (setLoc a.1 a.2.1 a.2.2)],
          componentsLength := 2 ^ (k + 1) - 1,
          componentCount := m.componentCount + 1 }
        (by simp [h1]) (by simp; rw [pow_succ]; omega)
        ⟨k + 1, by omega, rfl⟩ (by simp; omega)
      refine ⟨m2, ?_, ?_, ?_⟩
      · unfold ContainerMem.addAll
        rw [hstep]
        exact hall
      · rw [hcomp]
        simp
      · simp at hcount ⊢
        omega
    · have hstep : m.add a.1 a.2.1 a.2.2 = some
          { components := m.components ++ [repaintComp (setLoc a.1 a.2.1 a.2.2)],
            componentsLength := m.componentsLength,
            componentCount := m.componentCount + 1 } := by
        unfold ContainerMem.add
        rw [if_neg hgrow, if_pos (by omega)]
        have : (m.componentCount + 1) % 256 = m.componentCount + 1 :=
          Nat.mod_eq_of_lt (by omega)
        rw [this]
      obtain ⟨m2, hall, hcomp, hcount⟩ := ih
        { components := m.components ++ [repaintComp (setLoc a.1 a.2.1 a.2.2)],
          componentsLength := m.componentsLength,
          componentCount := m.componentCount + 1 }
        (by simp [h1]) (by simp; omega) ⟨k, hk, hlen⟩ (by simp; omega)
      refine ⟨m2, ?_, ?_, ?_⟩
      · unfold ContainerMem.addAll
        rw [hstep]
        exact hall
      · rw [hcomp]
        simp
      · simp at hcount ⊢
        omega

/-- C9 (amended).  For every sequence of at most 255 `add()` calls on a
fresh container, all adds succeed, the child count equals the number of
adds, and the child sequence is exactly the added components in
insertion order, each with its location set and `repaint()` invoked on
it (which marks a leaf child dirty; a childless container child stays
non-dirty — see the counterexample).  At the 256th add the `uint8_t`
capacity arithmetic stops growing the storage and the C++ writes out of
bounds. -/
theorem c9_add_sequence (adds : List (Comp × Int × Int)) (hn : adds.length ≤ 255) :
    ∃ m2, ContainerMem.addAll ContainerMem.empty adds = some m2
      ∧ m2.componentCount = adds.length
      ∧ m2.components = adds.map (fun a => repaintComp (setLoc a.1 a.2.1 a.2.2)) := by
  obtain ⟨m2, hall, hcomp, hcount⟩ := c9_addAll_aux adds ContainerMem.empty rfl
    (by decide) ⟨0, by omega, rfl⟩ (by simpa [ContainerMem.empty] using hn)
  exact ⟨m2, hall, by simpa [ContainerMem.empty] using hcount,
    by simpa [ContainerMem.empty] using hcomp⟩

/-- C9 counterexample.  Adding a childless plain container: the add
succeeds and calls `repaint()` on the child, but the child's `dirty()`
is false afterwards, so the add does not mark that child dirty. -/
theorem c9_added_empty_container_not_dirty :
    (ContainerMem.add ContainerMem.empty (Comp.cont ⟨0, 0, false, false⟩ []) 0 0).map
      (fun m => m.components.map (dirtyComp none)) = some [false] := rfl

/-- C9 witness: one added button. -/
theorem c9_add_sequence_witness :
    ∃ m2, ContainerMem.addAll ContainerMem.empty
        [(Comp.leaf ⟨1, 0, 0, 2, false, .button false⟩, 3, 4)] = some m2
      ∧ m2.componentCount = 1
      ∧ m2.components
        = [repaintComp (setLoc (Comp.leaf ⟨1, 0, 0, 2, false, .button false⟩) 3 4)] :=
  c9_add_sequence [(Comp.leaf ⟨1, 0, 0, 2, false, .button false⟩, 3, 4)] (by decide)

/-!
## C6: paint idempotence

After one paint pass a tree without nested `ScrollContainer`s is
*settled* (`settledComp`), and painting a settled tree draws nothing.
With nested scroll containers the claim fails: an inner scroll can move
the focus holder out of the outer viewport, making the outer
`scrollNeeded()` true only on the second pass (counterexample at the
end).
-/

theorem compY_clearDirty (c : Comp) : compY (clearDirty c) = compY c := by
  cases c <;> rfl

theorem chassis_clearDirty (c : Comp) : chassisComp (clearDirty c) = chassisComp c := by
  cases c <;> rfl

theorem scrollNeeded_dirtySelf (ctx : Option Nat) (d : ScrollData) (b : Bool)
    (cs : List Comp) :
    scrollNeeded ctx { d with dirtySelf := b } cs = scrollNeeded ctx d cs := rfl

theorem scrollNeeded_of_lastFH (ctx : Option Nat) (d : ScrollData) (cs : List Comp)
    (h : d.lastFocusHolder = ctx) : scrollNeeded ctx d cs = false := by
  unfold scrollNeeded
  simp [h]

theorem scFree_setLoc (c : Comp) (x y : Int) : scFreeComp (setLoc c x y) = scFreeComp c := by
  cases c <;> rfl

theorem scFree_offsetList (cs : List Comp) (dx dy : Int) :
    scFreeList (offsetList cs dx dy) = scFreeList cs := by
  induction cs with
  | nil => rfl
  | cons c rest ih =>
    show (scFreeComp (setLoc c (compX c + dx) (compY c + dy)) && scFreeList (offsetList rest dx dy))
      = (scFreeComp c && scFreeList rest)
    rw [scFree_setLoc, ih]

theorem scFree_repaint :
    (∀ c, scFreeComp (repaintComp c) = scFreeComp c)
    ∧ ∀ cs, scFreeList (repaintList cs) = scFreeList cs := by
  apply Comp.myInd
  · intro l
    rfl
  · intro d cs h
    simpa [repaintComp, scFreeComp] using h
  · intro d cs _
    rfl
  · rfl
  · intro c cs h1 h2
    simp [repaintList, scFreeList, h1, h2]

theorem scFree_noNest :
    (∀ c, scFreeComp c = true → noNestComp c = true)
    ∧ ∀ cs, scFreeList cs = true → noNestList cs = true := by
  apply Comp.myInd
  · intro l _
    rfl
  · intro d cs h hf
    simp only [scFreeComp] at hf
    simpa [noNestComp] using h hf
  · intro d cs _ hf
    simp [scFreeComp] at hf
  · intro _
    rfl
  · intro c cs h1 h2 hf
    simp only [scFreeList, Bool.and_eq_true] at hf
    simp [noNestList, h1 hf.1, h2 hf.2]

theorem chassis_findY :
    (∀ c i, findYComp (chassisComp c) i = findYComp c i)
    ∧ ∀ cs, ∀ i : Nat, findYList (chassisList cs) i = findYList cs i := by
  apply Comp.myInd (Q := fun cs => ∀ i : Nat, findYList (chassisList cs) i = findYList cs i)
  · intro l i
    rfl
  · intro d cs h i
    simpa [chassisComp, findYComp] using h i
  · intro d cs h i
    simpa [chassisComp, findYComp] using h i
  · intro i
    rfl
  · intro c cs h1 h2 i
    simp [chassisList, findYList, h1, h2]

theorem chassis_contains :
    (∀ c i, containsComp (chassisComp c) i = containsComp c i)
    ∧ ∀ cs, ∀ i : Nat, containsList (chassisList cs) i = containsList cs i := by
  apply Comp.myInd (Q := fun cs => ∀ i : Nat, containsList (chassisList cs) i = containsList cs i)
  · intro l i
    rfl
  · intro d cs h i
    simpa [chassisComp, containsComp] using h i
  · intro d cs h i
    simpa [chassisComp, containsComp] using h i
  · intro i
    rfl
  · intro c cs h1 h2 i
    simp [chassisList, containsList, h1, h2]

theorem compY_chassis (c : Comp) : compY (chassisComp c) = compY c := by
  cases c <;> rfl

theorem scrollNeeded_congr (ctx : Option Nat) (d : ScrollData) (cs1 cs2 : List Comp)
    (h : chassisList cs1 = chassisList cs2) :
    scrollNeeded ctx d cs1 = scrollNeeded ctx d cs2 := by
  unfold scrollNeeded
  have hc : ∀ i : Nat, containsList cs1 i = containsList cs2 i := by
    intro i
    rw [← chassis_contains.2 cs1 i, h, chassis_contains.2 cs2 i]
  have hf : ∀ i : Nat, findYList cs1 i = findYList cs2 i := by
    intro i
    rw [← chassis_findY.2 cs1 i, h, chassis_findY.2 cs2 i]
  cases ctx with
  | none => rfl
  | some fh => simp [hc fh, hf fh]

theorem settled_clearDirty (ctx : Option Nat) (c : Comp) (h : settledComp ctx c) :
    settledComp ctx (clearDirty c) := by
  cases c with
  | leaf l => simp [clearDirty, settledComp]
  | cont d cs => simpa [clearDirty, settledComp] using h
  | scroll d cs =>
    simp only [clearDirty, settledComp, scrollNeeded_dirtySelf] at h ⊢
    exact h

theorem settled_of_not_dirty :
    (∀ c, ∀ ctx : Option Nat, dirtyComp ctx c = false → settledComp ctx c)
    ∧ ∀ cs, ∀ ctx : Option Nat, dirtyList ctx cs = false → settledList ctx cs := by
  apply Comp.myInd
  · intro l ctx h
    simpa [dirtyComp, settledComp] using h
  · intro d cs h ctx hd
    simp only [dirtyComp] at hd
    simpa [settledComp] using h ctx hd
  · intro d cs h ctx hd
    simp only [dirtyComp, Bool.or_eq_false_iff] at hd
    refine ⟨hd.2, ?_⟩
    have hs := h ctx hd.1
    clear h hd
    induction cs with
    | nil => trivial
    | cons c rest ih =>
      obtain ⟨h1, h2⟩ := hs
      exact ⟨fun _ => h1, ih h2⟩
  · intro ctx _
    trivial
  · intro c cs h1 h2 ctx hd
    simp only [dirtyList, Bool.or_eq_false_iff] at hd
    exact ⟨h1 ctx hd.1, h2 ctx hd.2⟩

theorem chassis_paint :
    (∀ c, ∀ ctx : Option Nat, scFreeComp c = true →
      chassisComp (paintComp ctx c).1 = chassisComp c)
    ∧ ∀ cs,
      (∀ ctx : Option Nat, scFreeList cs = true →
        chassisList (paintList ctx cs).1 = chassisList cs)
      ∧ ∀ ctx : Option Nat, ∀ scY : Int, ∀ scH : Nat, scFreeList cs = true →
        chassisList (scPaintList ctx scY scH cs).1 = chassisList cs := by
  apply Comp.myInd
  · intro l ctx _
    simp [paintComp, chassisComp]
  · intro d cs h ctx hf
    simp only [scFreeComp] at hf
    simp [paintComp, chassisComp, (h.1) ctx hf]
  · intro d cs _ _ hf
    simp [scFreeComp] at hf
  · exact ⟨fun _ _ => by simp [paintList, chassisList],
      fun _ _ _ _ => by simp [scPaintList, chassisList]⟩
  · intro c cs h1 h2
    constructor
    · intro ctx hfl
      simp only [scFreeList, Bool.and_eq_true] at hfl
      rw [paintList]
      split
      · simp [chassisList, h1 ctx hfl.1, (h2.1) ctx hfl.2]
      · simp [chassisList, (h2.1) ctx hfl.2]
    · intro ctx scY scH hfl
      simp only [scFreeList, Bool.and_eq_true] at hfl
      rw [scPaintList]
      split
      · simp [chassisList, h1 ctx hfl.1, (h2.2) ctx scY scH hfl.2]
      · simp [chassisList, chassis_clearDirty, (h2.2) ctx scY scH hfl.2]

theorem settled_after_paint : ∀ n : Nat,
    (∀ ctx : Option Nat, ∀ c, csizeComp c ≤ n → noNestComp c = true →
      settledComp ctx (paintComp ctx c).1)
    ∧ (∀ ctx : Option Nat, ∀ cs, csizeList cs ≤ n → noNestList cs = true →
      settledList ctx (paintList ctx cs).1)
    ∧ (∀ ctx : Option Nat, ∀ scY : Int, ∀ scH : Nat, ∀ cs, csizeList cs ≤ n →
      scFreeList cs = true → settledVis ctx scY scH (scPaintList ctx scY scH cs).1) := by
  intro n
  induction n with
  | zero =>
    refine ⟨?_, ?_, ?_⟩
    · intro ctx c hsz _
      have := csizeComp_pos c
      omega
    · intro ctx cs hsz _
      cases cs with
      | nil => simp [paintList, settledList]
      | cons c rest =>
        have := csizeComp_pos c
        simp [csizeList] at hsz
        omega
    · intro ctx scY scH cs hsz _
      cases cs with
      | nil => simp [scPaintList, settledVis]
      | cons c rest =>
        have := csizeComp_pos c
        simp [csizeList] at hsz
        omega
  | succ n ih =>
    obtain ⟨ihC, ihL, ihV⟩ := ih
    have hComp : ∀ ctx c, csizeComp c ≤ n + 1 → noNestComp c = true →
        settledComp ctx (paintComp ctx c).1 := by
      intro ctx c hsz hn
      cases c with
      | leaf l => simp [paintComp, settledComp]
      | cont d cs =>
        have hsz2 : csizeList cs ≤ n := by
          simp only [csizeComp] at hsz
          omega
        have hn2 : noNestList cs = true := by simpa [noNestComp] using hn
        simpa [paintComp, settledComp] using ihL ctx cs hsz2 hn2
      | scroll d cs =>
        have hf : scFreeList cs = true := by simpa [noNestComp] using hn
        have hsz2 : csizeList cs ≤ n := by
          simp only [csizeComp] at hsz
          omega
        by_cases hsn : scrollNeeded ctx { d with dirtySelf := false } cs = true
        · have hvis := ihV ctx d.y d.height
            (repaintList (offsetList cs 0
              (if toUInt8c (d.y + (d.height : Int) - 1) <
                  ((ctx.bind (findYList cs)).getD 0) then
                toUInt8c (d.y + (d.height : Int) - 1) - ((ctx.bind (findYList cs)).getD 0)
              else toUInt8c d.y - ((ctx.bind (findYList cs)).getD 0))))
            (by rw [csize_repaint.2, csizeList_offsetList]; exact hsz2)
            (by rw [scFree_repaint.2, scFree_offsetList]; exact hf)
          simp only [paintComp, hsn, if_true, settledComp]
          exact ⟨scrollNeeded_of_lastFH _ _ _ rfl, hvis⟩
        · have hsn2 : scrollNeeded ctx { d with dirtySelf := false } cs = false := by
            simpa using hsn
          have hch := (chassis_paint.2 cs).2 ctx d.y d.height hf
          simp only [paintComp, hsn2, Bool.false_eq_true, if_false, settledComp]
          constructor
          · rw [scrollNeeded_congr ctx _ _ cs hch]
            exact hsn2
          · exact ihV ctx d.y d.height cs hsz2 hf
    refine ⟨hComp, ?_, ?_⟩
    · intro ctx cs
      induction cs with
      | nil =>
        intro _ _
        simp [paintList, settledList]
      | cons c rest ihr =>
        intro hsz hn
        simp only [noNestList, Bool.and_eq_true] at hn
        have hp := csizeComp_pos c
        have hszc : csizeComp c ≤ n + 1 := by
          simp only [csizeList] at hsz
          omega
        have hszr : csizeList rest ≤ n + 1 := by
          simp only [csizeList] at hsz
          omega
        rw [paintList]
        split
        · exact ⟨hComp ctx c hszc hn.1, ihr hszr hn.2⟩
        · next hnd =>
          exact ⟨settled_of_not_dirty.1 c ctx (by simpa using hnd), ihr hszr hn.2⟩
    · intro ctx scY scH cs
      induction cs with
      | nil =>
        intro _ _
        simp [scPaintList, settledVis]
      | cons c rest ihr =>
        intro hsz hf
        simp only [scFreeList, Bool.and_eq_true] at hf
        have hp := csizeComp_pos c
        have hszc : csizeComp c ≤ n + 1 := by
          simp only [csizeList] at hsz
          omega
        have hszr : csizeList rest ≤ n + 1 := by
          simp only [csizeList] at hsz
          omega
        rw [scPaintList]
        split
        · exact ⟨fun _ => hComp ctx c hszc (scFree_noNest.1 c hf.1), ihr hszr hf.2⟩
        · next hnd =>
          refine ⟨?_, ihr hszr hf.2⟩
          intro hvis
          rw [compY_clearDirty] at hvis
          have hnotdirty : dirtyComp ctx c = false := by
            by_contra hcontra
            simp at hcontra
            exact hnd ⟨hcontra, hvis⟩
          exact settled_clearDirty ctx c (settled_of_not_dirty.1 c ctx hnotdirty)

theorem draws_of_settled :
    (∀ c, ∀ ctx : Option Nat, settledComp ctx c → dirtyComp ctx c = true →
      (paintComp ctx c).2 = [])
    ∧ ∀ cs,
      (∀ ctx : Option Nat, settledList ctx cs → (paintList ctx cs).2 = [])
      ∧ ∀ ctx : Option Nat, ∀ scY : Int, ∀ scH : Nat,
        settledVis ctx scY scH cs → (scPaintList ctx scY scH cs).2 = [] := by
  apply Comp.myInd
  · intro l ctx hs hd
    simp only [settledComp] at hs
    simp only [dirtyComp] at hd
    rw [hs] at hd
    exact absurd hd (by simp)
  · intro d cs h ctx hs _
    simp only [settledComp] at hs
    simpa [paintComp] using (h.1) ctx hs
  · intro d cs h ctx hs _
    obtain ⟨hsn, hvis⟩ := hs
    have hsn0 : scrollNeeded ctx { d with dirtySelf := false } cs = false := by
      rw [scrollNeeded_dirtySelf]
      exact hsn
    simp only [paintComp, hsn0, Bool.false_eq_true, if_false]
    exact (h.2) ctx d.y d.height hvis
  · exact ⟨fun _ _ => by simp [paintList],
      fun _ _ _ _ => by simp [scPaintList]⟩
  · intro c cs h1 h2
    constructor
    · intro ctx hs
      obtain ⟨hsc, hsl⟩ := hs
      rw [paintList]
      split
      · next hd => simp [h1 ctx hsc hd, (h2.1) ctx hsl]
      · simp [(h2.1) ctx hsl]
    · intro ctx scY scH hvis
      obtain ⟨hvc, hvl⟩ := hvis
      rw [scPaintList]
      split
      · next hd => simp [h1 ctx (hvc hd.2) hd.1, (h2.2) ctx scY scH hvl]
      · simp [(h2.2) ctx scY scH hvl]

/-- C6 (amended).  For every tree in which no `ScrollContainer` contains
another `ScrollContainer` (directly or transitively), and any focus
context, calling `paint` twice in succession with no intervening state
change performs no drawing on the second call: the first pass clears the
dirty flags of everything it visits (skipping non-dirty children,
clearing out-of-viewport children without drawing) and settles every
scroll decision, so the second pass draws nothing.  With nested scroll
containers an inner scroll can move the focus holder out of the outer
viewport and the second call does draw — see the counterexample. -/
theorem c6_second_paint_draws_nothing (ctx : Option Nat) (cs : List Comp)
    (h : noNestList cs = true) :
    (paintList ctx (paintList ctx cs).1).2 = [] := by
  have hset : settledList ctx (paintList ctx cs).1 :=
    (settled_after_paint (csizeList cs)).2.1 ctx cs le_rfl h
  exact ((draws_of_settled.2) (paintList ctx cs).1).1 ctx hset

/-- C6 counterexample.  An outer `ScrollContainer` (rows `[1,2]`) holding
an inner zero-height `ScrollContainer` whose focus holder starts inside
the outer viewport: the first paint makes the inner container scroll the
focus holder to row 0 (outside the outer viewport), and the second paint
— with no intervening state change — finds the outer `scrollNeeded()`
true and draws its two `clearLine` rows. -/
theorem c6_nested_scroll_draws_again :
    (paintList (some 1) (paintList (some 1)
      [Comp.scroll ⟨0, 1, 8, 2, false, true, none⟩
        [Comp.scroll ⟨0, 1, 8, 0, false, true, none⟩
          [Comp.leaf ⟨1, 0, 1, 1, false, .button false⟩]]]).1).2
    = [DrawOp.blank 0 1, DrawOp.blank 0 2] := by
  simp [paintComp, paintList, scPaintList, scrollNeeded, containsList, containsComp,
    findYList, findYComp, repaintList, repaintComp, offsetList, setLoc, compX, compY,
    toInt8c, toUInt8c, dirtyComp, dirtyList, clearDirty, leafDraws]
  decide

/-- C6 witness: a flat tree with one scroll container and two buttons. -/
theorem c6_second_paint_witness :
    noNestList [Comp.scroll ⟨0, 1, 8, 2, false, true, none⟩
        [Comp.leaf ⟨1, 0, 1, 1, true, .button false⟩],
      Comp.leaf ⟨2, 0, 3, 1, true, .button false⟩] = true
    ∧ (paintList (some 1) (paintList (some 1)
        [Comp.scroll ⟨0, 1, 8, 2, false, true, none⟩
          [Comp.leaf ⟨1, 0, 1, 1, true, .button false⟩],
        Comp.leaf ⟨2, 0, 3, 1, true, .button false⟩]).1).2 = [] :=
  ⟨by decide, c6_second_paint_draws_nothing (some 1) _ (by decide)⟩

/-!
## C10: the first-update repaint workaround
-/

theorem draws_cover_dirty_leaves :
    (∀ c, ∀ ctx : Option Nat, scFreeComp c = true →
      ∀ l ∈ leavesComp c, l.dirty = true →
        ∃ x y, DrawOp.text x y l.id ∈ (paintComp ctx c).2)
    ∧ ∀ cs, ∀ ctx : Option Nat, scFreeList cs = true →
      ∀ l ∈ leavesList cs, l.dirty = true →
        ∃ x y, DrawOp.text x y l.id ∈ (paintList ctx cs).2 := by
  apply Comp.myInd
  · intro l0 ctx _ l hm _
    simp only [leavesComp, List.mem_singleton] at hm
    subst hm
    refine ⟨toUInt8c (l.x + (if l.w.acceptsFocus then 1 else 0)), toUInt8c l.y, ?_⟩
    simp [paintComp, leafDraws]
  · intro d cs h ctx hf l hm hd
    simp only [scFreeComp] at hf
    simp only [leavesComp] at hm
    simpa [paintComp] using h ctx hf l hm hd
  · intro d cs _ _ hf
    simp [scFreeComp] at hf
  · intro ctx _ l hm
    simp [leavesList] at hm
  · intro c cs h1 h2 ctx hf l hm hd
    simp only [scFreeList, Bool.and_eq_true] at hf
    simp only [leavesList, List.mem_append] at hm
    rw [paintList]
    rcases hm with hm | hm
    · have hdirty : dirtyComp ctx c = true := dirty_of_leafDirty.1 c ctx ⟨l, hm, hd⟩
      rw [if_pos hdirty]
      obtain ⟨x, y, hx⟩ := h1 ctx hf.1 l hm hd
      exact ⟨x, y, by simp [hx]⟩
    · obtain ⟨x, y, hx⟩ := h2 ctx hf.2 l hm hd
      split
      · exact ⟨x, y, by simp [hx]⟩
      · exact ⟨x, y, by simp [hx]⟩

/-- C10.  The very first `Screen::update` (and only the first) ends with
the workaround `repaint()`: whenever an update from a state with
`annoyingBugWorkedAround_` still false completes, every non-container
component of the resulting tree is dirty and the flag is set; from any
state with the flag set, `update` is exactly the frame with no trailing
repaint.  Third conjunct: painting a fully-dirty scroll-free tree (the
second frame's situation, even with no input) draws every leaf's text —
the second frame redraws everything. -/
theorem c10_first_update_forced_repaint (st : ScreenState) (inp : InputState)
    (hfresh : st.annoyingBugWorkedAround = false) :
    (∀ st1 d1, screenUpdate st inp = some (st1, d1) →
      st1.annoyingBugWorkedAround = true
      ∧ ∀ l ∈ leavesList st1.children, l.dirty = true)
    ∧ (∀ st2 : ScreenState, ∀ inp2 : InputState, st2.annoyingBugWorkedAround = true →
        screenUpdate st2 inp2 = screenFrame st2 inp2)
    ∧ ∀ ctx : Option Nat, ∀ cs : List Comp, scFreeList cs = true →
        (∀ l ∈ leavesList cs, l.dirty = true) →
        ∀ l ∈ leavesList cs, ∃ x y, DrawOp.text x y l.id ∈ (paintList ctx cs).2 := by
  refine ⟨?_, ?_, ?_⟩
  · intro st1 d1 h
    unfold screenUpdate at h
    cases hf : screenFrame st inp with
    | none =>
      rw [hf] at h
      exact absurd h (by simp)
    | some p =>
      rw [hf, hfresh] at h
      simp only [Bool.false_eq_true, if_false, Option.some_inj, Prod.mk.injEq] at h
      obtain ⟨h1, -⟩ := h
      refine ⟨by rw [← h1], ?_⟩
      have hch : st1.children = repaintList p.1.children := by
        rw [← h1]
      rw [hch, leaves_repaint.2]
      intro l hm
      obtain ⟨l0, _, rfl⟩ := List.mem_map.mp hm
      rfl
  · intro st2 inp2 hann
    unfold screenUpdate
    cases hf : screenFrame st2 inp2 with
    | none => simp
    | some p => simp [hann]
  · intro ctx cs hf hall l hm
    exact draws_cover_dirty_leaves.2 cs ctx hf l hm (hall l hm)

/-- C10 counterexample.  The claim's "after the first update returns
every component is dirty" fails for a childless container child: the
first update does end with the workaround `repaint()`, but `repaint` on
that child marks nothing and its `dirty()` stays false. -/
theorem c10_empty_container_child_not_dirty :
    (screenUpdate
      { children := [Comp.cont ⟨0, 0, false, false⟩ []],
        cleared := false, focusHolder := none, focusHolderSelected := false,
        annoyingBugWorkedAround := false, firstUpdateCompleted := false }
      ⟨0, 0, false, false⟩).map (fun p => p.1.children.map (dirtyComp none))
    = some [false] := by
  simp [screenUpdate, screenFrame, updateList, updateComp, Widget.update, offsetList,
    setLoc, compX, compY, toInt8c, toUInt8c, nextFocusHolder, nfhFwd, nfhRev, nfhComp,
    Widget.acceptsFocus, repaintAtList, repaintAtComp, paintList, paintComp, scPaintList,
    dirtyComp, dirtyList, scrollNeeded, leafDraws, clearDirty, findYList, findYComp,
    containsList, containsComp, repaintList, repaintComp]

/-- C10 witness: a fresh one-button screen, one movement frame. -/
theorem c10_first_update_witness :
    (∀ st1 d1, screenUpdate
        { children := [Comp.leaf ⟨1, 0, 0, 2, false, .button false⟩],
          cleared := false, focusHolder := none, focusHolderSelected := false,
          annoyingBugWorkedAround := false, firstUpdateCompleted := false }
        ⟨0, 1, false, false⟩ = some (st1, d1) →
      st1.annoyingBugWorkedAround = true
      ∧ ∀ l ∈ leavesList st1.children, l.dirty = true)
    ∧ (∀ st2 : ScreenState, ∀ inp2 : InputState, st2.annoyingBugWorkedAround = true →
        screenUpdate st2 inp2 = screenFrame st2 inp2)
    ∧ ∀ ctx : Option Nat, ∀ cs : List Comp, scFreeList cs = true →
        (∀ l ∈ leavesList cs, l.dirty = true) →
        ∀ l ∈ leavesList cs, ∃ x y, DrawOp.text x y l.id ∈ (paintList ctx cs).2 :=
  c10_first_update_forced_repaint
    { children := [Comp.leaf ⟨1, 0, 0, 2, false, .button false⟩],
      cleared := false, focusHolder := none, focusHolderSelected := false,
      annoyingBugWorkedAround := false, firstUpdateCompleted := false }
    ⟨0, 1, false, false⟩ rfl

end ScreenUi
